import Mathlib

/-!
Shallow embedding of the circuit-board core of the `rls` repository
(`src/board.rs`, `src/main.rs`, `src/circuits/mod.rs`,
`src/circuits/gates/not.rs`), together with proofs about the frozen
claims.

The repository's `wires.rs`, `state.rs` and `containers.rs` modules are not
present under `src/`; the data carriers they define (`WireNode`, `Wire`,
`WirePoint`, `Chunks2D`, `FixedVec`, the signal-state collection) are
modelled from the specification, faithful to how `board.rs` uses them.
All algorithms (`set_wire_point`, `place_wire_part`, `merge_wires`,
`split_wire`, `split_wires`, intersection toggling, `place_circuit`,
`CircuitPinInfo::set_state`, the NOT gate) are translated from the source.
-/

namespace RLS

/-- A 2D tile coordinate (`Vec2i` in the source). -/
structure Pos where
  x : Int
  y : Int
deriving DecidableEq, Repr

/-- Move `i` steps along an axis: vertical moves grow `y` (downwards in the
source's coordinate system), horizontal moves grow `x`. -/
def Pos.step (p : Pos) (vertical : Bool) (i : Int) : Pos :=
  if vertical then ⟨p.x, p.y + i⟩ else ⟨p.x + i, p.y⟩

/-- Per-tile wire record (`WireNode`, modelled from the spec's Tile Node:
an optional owning wire id, and the two distance counters `left`/`up`,
`0` meaning none). -/
structure WireNode where
  wire : Option Nat
  left : Nat
  up : Nat
deriving DecidableEq, Repr

/-- The all-empty tile, equivalent to an absent cell. -/
def WireNode.empty : WireNode := ⟨none, 0, 0⟩

/-- `WireNode::is_empty`. -/
def WireNode.isEmpty (n : WireNode) : Bool :=
  n.wire.isNone && n.left == 0 && n.up == 0

/-- The distance counter of the given axis (`node.up` / `node.left`). -/
def WireNode.pointer (n : WireNode) (vertical : Bool) : Nat :=
  if vertical then n.up else n.left

/-- Replace the distance counter of the given axis. -/
def WireNode.setPointer (n : WireNode) (vertical : Bool) (v : Nat) : WireNode :=
  if vertical then { n with up := v } else { n with left := v }

/-- The sparse tile grid (`Chunks2D<16, WireNode>`, modelled from the spec:
a sparse map from coordinates to tiles, cell absence equivalent to the
default tile).  Stored as an association list; `get` takes the first
matching entry.  Presence is tracked per node rather than per 16×16 chunk;
the two granularities are observationally equal for every operation
embedded here except `set_node_wires`, which skips absent cells — and is
only ever invoked on positions carrying wire points, which are present. -/
abbrev Grid := List (Pos × WireNode)

/-- Tile lookup with the default-empty-tile contract. -/
def Grid.get (g : Grid) (p : Pos) : WireNode :=
  match g.find? (fun e => e.1 = p) with
  | some e => e.2
  | none => WireNode.empty

/-- Whether the cell is materialized (corresponds to `get` returning
`Some` in the source). -/
def Grid.present (g : Grid) (p : Pos) : Bool :=
  (g.find? (fun e => e.1 = p)).isSome

/-- Write a tile, materializing it (`get_or_create_mut` followed by a
write). -/
def Grid.set (g : Grid) (p : Pos) (n : WireNode) : Grid :=
  (p, n) :: g.eraseP (fun e => e.1 = p)

/-- Write a tile only when it is materialized (`get_mut` followed by a
write). -/
def Grid.setIfPresent (g : Grid) (p : Pos) (n : WireNode) : Grid :=
  if g.present p then g.set p n else g

/-- The largest distance counter stored anywhere in the grid; used to bound
the pointer-chasing loops, which can only keep running while they meet
stored counters equal to an ever-growing target. -/
def Grid.maxPtr (g : Grid) : Nat :=
  g.foldr (fun e m => max (max e.2.left e.2.up) m) 0

/-- A reuse-aware slot store (`FixedVec`, modelled from the spec: freed ids
are recycled, `first_free_pos` returns the smallest unoccupied slot). -/
abbrev FixedVec (α : Type) := List (Option α)

/-- Slot lookup (`FixedVec::get`). -/
def FixedVec.get {α : Type} (v : FixedVec α) (i : Nat) : Option α :=
  (v.getD i none)

/-- `FixedVec::exists`. -/
def FixedVec.existsAt {α : Type} (v : FixedVec α) (i : Nat) : Bool :=
  (FixedVec.get v i).isSome

/-- `FixedVec::first_free_pos`: the first unoccupied index. -/
def FixedVec.firstFreePos {α : Type} (v : FixedVec α) : Nat :=
  match v with
  | [] => 0
  | none :: _ => 0
  | some _ :: rest => FixedVec.firstFreePos rest + 1

/-- `FixedVec::set`, growing the store with empty slots as needed. -/
def FixedVec.set {α : Type} (v : FixedVec α) (a : α) (i : Nat) : FixedVec α :=
  match v, i with
  | [], 0 => [some a]
  | [], i + 1 => none :: FixedVec.set [] a i
  | _ :: rest, 0 => some a :: rest
  | x :: rest, i + 1 => x :: FixedVec.set rest a i

/-- `FixedVec::remove`: clear a slot (the removed value is read separately
via `get`). -/
def FixedVec.removeAt {α : Type} (v : FixedVec α) (i : Nat) : FixedVec α :=
  match v, i with
  | [], _ => []
  | _ :: rest, 0 => none :: rest
  | x :: rest, i + 1 => x :: FixedVec.removeAt rest i

/-- The occupied entries in index order (`FixedVec::iter`). -/
def FixedVec.entries {α : Type} (v : FixedVec α) : List α :=
  v.filterMap id

end RLS

namespace RLS

/-- A pin identity: (circuit id, pin index), `CircuitPinId` in the source.
Pin objects are shared by reference; the embedding keys them by identity
and keeps their mutable connected-wire field in a heap on the board
state. -/
abbrev PinId := Nat × Nat

/-- A wire's record for one of its anchor positions (`WirePoint`, modelled
from the spec: direction flags and an optional connected pin). -/
structure WirePoint where
  left : Bool
  up : Bool
  pin : Option PinId
deriving DecidableEq, Repr

/-- A wire's point map (`HashMap<Vec2i, WirePoint>`), as an association
list; iteration order is list order. -/
abbrev PMap := List (Pos × WirePoint)

/-- Point lookup. -/
def PMap.get? (m : PMap) (p : Pos) : Option WirePoint :=
  (m.find? (fun e => e.1 = p)).map (·.2)

/-- Point insertion (replacing any previous entry). -/
def PMap.insert (m : PMap) (p : Pos) (pt : WirePoint) : PMap :=
  (p, pt) :: m.eraseP (fun e => e.1 = p)

/-- Point removal. -/
def PMap.erase (m : PMap) (p : Pos) : PMap :=
  m.eraseP (fun e => e.1 = p)

/-- The key list of a point map. -/
def PMap.keys (m : PMap) : List Pos :=
  m.map (·.1)

/-- A wire: stable id plus its point map (`Wire`, modelled from the
spec). -/
structure Wire where
  id : Nat
  points : PMap
deriving DecidableEq, Repr

/-- Update the wire stored in a slot, if the slot is occupied. -/
def FixedVec.updateAt {α : Type} (v : FixedVec α) (i : Nat) (f : α → α) :
    FixedVec α :=
  match FixedVec.get v i with
  | some a => FixedVec.set v (f a) i
  | none => v

/-- A circuit pin as laid out by a preview: tile offset inside the
circuit's footprint plus the pin's identity. -/
structure CircuitPinB where
  pinPos : Nat × Nat
  pid : PinId
deriving DecidableEq, Repr

/-- A placed circuit (the fields of `Circuit` that the embedded operations
read). -/
structure Circuit where
  id : Nat
  pos : Pos
  pins : List CircuitPinB
deriving DecidableEq, Repr

/-- Per-tile circuit record (`CircuitNode`). -/
structure CircuitNode where
  circuit : Option Nat
  originDist : Nat × Nat
deriving DecidableEq, Repr

/-- The sparse circuit-node grid (`Chunks2D<16, CircuitNode>`). -/
abbrev CGrid := List (Pos × CircuitNode)

/-- Circuit-node lookup; `none` models an absent cell. -/
def CGrid.get? (g : CGrid) (p : Pos) : Option CircuitNode :=
  (g.find? (fun e => e.1 = p)).map (·.2)

/-- Write a circuit node, materializing the cell. -/
def CGrid.set (g : CGrid) (p : Pos) (n : CircuitNode) : CGrid :=
  (p, n) :: g.eraseP (fun e => e.1 = p)

/-- A circuit preview (`CircuitPreview`, modelled from the spec: it
reports a size, a pin layout and an optional periodic-update interval;
intervals are abstracted to a `Nat` tag). -/
structure Preview where
  sizeX : Nat
  sizeY : Nat
  pinOffsets : List (Nat × Nat)
  updateInterval : Option Nat
deriving DecidableEq, Repr

/-- The board state: tile index, wire topology, circuit registry, the
shared pin heap, and logs of the update requests issued to the signal
state engine (modelled from the spec; the engine itself is external to
the board operations embedded here). -/
structure BoardState where
  wireNodes : Grid
  circuitNodes : CGrid
  wires : FixedVec Wire
  circuits : FixedVec Circuit
  pinWires : List (PinId × Option Nat)
  wireUpdates : List Nat
  circuitUpdates : List Nat
  updates : List Nat
  intervalUpdates : List (Nat × Nat)
deriving DecidableEq, Repr

/-- The empty board. -/
def BoardState.empty : BoardState :=
  ⟨[], [], [], [], [], [], [], [], []⟩

/-- Point the shared pin object at a wire (`CircuitPin::set_wire`,
modelled from the spec: the pin's connected-wire reference is
replaced). -/
def setPinWire (h : List (PinId × Option Nat)) (pid : PinId)
    (w : Option Nat) : List (PinId × Option Nat) :=
  (pid, w) :: h.eraseP (fun e => e.1 = pid)

/-- Read a pin's connected-wire reference. -/
def pinWireOf (s : BoardState) (pid : PinId) : Option Nat :=
  match s.pinWires.find? (fun e => e.1 = pid) with
  | some e => e.2
  | none => none

/-- `ActiveCircuitBoard::pin_at`: the pin whose owning circuit covers
`pos` with matching local offset, if any. -/
def pinAt (s : BoardState) (p : Pos) : Option PinId :=
  match CGrid.get? s.circuitNodes p with
  | none => none
  | some node =>
    match node.circuit with
    | none => none
    | some cid =>
      match FixedVec.get s.circuits cid with
      | none => none
      | some c =>
        (c.pins.find? (fun pb => pb.pinPos = node.originDist)).map (·.pid)

/-- `WireDirection` (modelled from the spec's wires-at-tile query). -/
inductive WireDirection where
  | dirNone
  | dirUp
  | dirLeft
deriving DecidableEq, Repr

/-- `TileWires`: the result of the wires-at-tile query. -/
inductive TileWires where
  | twNone
  | one (wire : Nat) (dir : WireDirection)
  | two (left : Nat) (up : Nat)
deriving DecidableEq, Repr

/-- `ActiveCircuitBoard::wires_at_node`. -/
def wiresAtNode (s : BoardState) (pos : Pos) (node : WireNode) : TileWires :=
  match node.wire with
  | some w => .one w .dirNone
  | none =>
    let upw : Option Nat :=
      if node.up = 0 then none
      else (s.wireNodes.get (pos.step true (-(node.up : Int)))).wire
    let leftw : Option Nat :=
      if node.left = 0 then none
      else (s.wireNodes.get (pos.step false (-(node.left : Int)))).wire
    match leftw, upw with
    | none, none => .twNone
    | none, some u => .one u .dirUp
    | some l, none => .one l .dirLeft
    | some l, some u => .two l u

/-- `ActiveCircuitBoard::wires_at`. -/
def wiresAt (s : BoardState) (pos : Pos) : TileWires :=
  if s.wireNodes.present pos then wiresAtNode s pos (s.wireNodes.get pos)
  else .twNone

/-- `FoundWireNode`. -/
structure FoundWireNode where
  node : WireNode
  wire : Nat
  pos : Pos
  distance : Nat
deriving DecidableEq, Repr

/-- The forward branch of `find_node_from_node`: walk `i = 1, 2, …`
checking that the node `i` steps ahead stores pointer `start + i`,
stopping at the first anchor.  The source loop can only keep running
while it meets stored counters equal to `start + i ≥ i`, so it exits
within `maxPtr` steps; the fuel `maxPtr + 1` makes the recursion total
without changing any terminating run. -/
def findFwdGo (g : Grid) (pos : Pos) (vertical : Bool) (start : Nat) :
    Nat → Nat → Option FoundWireNode
  | _, 0 => none
  | i, fuel + 1 =>
    let tpos := pos.step vertical (i : Int)
    let target := g.get tpos
    if target.pointer vertical ≠ start + i then none
    else
      match target.wire with
      | some w => some ⟨target, w, tpos, i⟩
      | none => findFwdGo g pos vertical start (i + 1) fuel

/-- `ActiveCircuitBoard::find_node_from_node`. -/
def findNodeFromNode (s : BoardState) (node : WireNode) (pos : Pos)
    (vertical forward : Bool) : Option FoundWireNode :=
  let ptr := node.pointer vertical
  if forward then
    let start := if node.wire.isSome then 0 else ptr
    findFwdGo s.wireNodes pos vertical start 1 (s.wireNodes.maxPtr + 1)
  else if ptr = 0 then none
  else
    let tpos := pos.step vertical (-(ptr : Int))
    let target := s.wireNodes.get tpos
    match target.wire with
    | some w => some ⟨target, w, tpos, ptr⟩
    | none => none

/-- `ActiveCircuitBoard::find_node`. -/
def findNode (s : BoardState) (pos : Pos) (vertical forward : Bool) :
    Option FoundWireNode :=
  if s.wireNodes.present pos then
    findNodeFromNode s (s.wireNodes.get pos) pos vertical forward
  else none

end RLS

namespace RLS

/-- The loop body of `fix_pointers`.  The source text reads
`let pos = pos + dir;` inside the `for i in 1..` loop, so every iteration
re-reads the cell one step from `pos` (the binding is recomputed from the
function parameter each pass and never scaled by `i`), while the match
condition compares against `from + i`.  Consequently a terminating run
performs at most two iterations: after the first write the stored counter
can only match `from + 2` when `to = from + 1` (with `increment_to`), in
which case the source loop never exits; fuel `2` therefore reproduces
every terminating execution. -/
def fixPointersGo (pos : Pos) (vertical : Bool) (frm toV : Nat)
    (incrementTo : Bool) : Grid → Nat → Nat → Grid
  | g, _, 0 => g
  | g, i, fuel + 1 =>
    let p := pos.step vertical 1
    let node := g.get p
    if node.pointer vertical ≠ frm + i then g
    else
      let g' := g.set p
        (node.setPointer vertical (if incrementTo then toV + i else toV))
      if node.wire.isSome then g'
      else fixPointersGo pos vertical frm toV incrementTo g' (i + 1) fuel

/-- `fix_pointers` from `set_wire_point`. -/
def fixPointers (g : Grid) (pos : Pos) (vertical : Bool) (frm toV : Nat)
    (possiblyRemove : Bool) : Grid :=
  fixPointersGo pos vertical frm toV (decide (0 < toV) || !possiblyRemove) g 1 2

/-- `Wire::remove_point` applied through the board (modelled from the
spec: drop the point record; when a state collection is supplied, request
a recomputation of the wire). -/
def wireRemovePoint (s : BoardState) (w : Nat) (pos : Pos)
    (updateState : Bool) : BoardState :=
  match FixedVec.get s.wires w with
  | none => s
  | some wr =>
    let s' := { s with
      wires := FixedVec.set s.wires { wr with points := wr.points.erase pos } w }
    if updateState then { s' with wireUpdates := w :: s'.wireUpdates } else s'

/-- `Wire::add_point` applied through the board (modelled from the spec:
record the point with its direction flags and optional pin; when a state
collection is supplied, request a recomputation of the wire). -/
def wireAddPoint (s : BoardState) (w : Nat) (pos : Pos) (updateState : Bool)
    (lf uf : Bool) (pin : Option PinId) : BoardState :=
  match FixedVec.get s.wires w with
  | none => s
  | some wr =>
    let s' := { s with
      wires := FixedVec.set s.wires
        { wr with points := wr.points.insert pos ⟨lf, uf, pin⟩ } w }
    if updateState then { s' with wireUpdates := w :: s'.wireUpdates } else s'

/-- `ActiveCircuitBoard::set_wire_point`; returns the new state and the
previous wire id of the node. -/
def setWirePoint (s : BoardState) (pos : Pos) (wire : Option Nat)
    (updateState : Bool) : BoardState × Option Nat :=
  let node := s.wireNodes.get pos
  let prevWire := node.wire
  if prevWire = wire then (s, prevWire)
  else
    let lft := node.left
    let upv := node.up
    let g1 := s.wireNodes.set pos { node with wire := wire }
    let g2 :=
      if wire.isSome then
        fixPointers (fixPointers g1 pos false lft 0 false) pos true upv 0 false
      else
        fixPointers (fixPointers g1 pos false 0 lft true) pos true 0 upv true
    let s1 := { s with wireNodes := g2 }
    let s2 :=
      match prevWire with
      | some w => wireRemovePoint s1 w pos updateState
      | none => s1
    let s3 :=
      match wire with
      | some w =>
        wireAddPoint s2 w pos updateState (decide (0 < lft)) (decide (0 < upv))
          (pinAt s2 pos)
      | none => s2
    (s3, prevWire)

/-- `CircuitBoard::merge_wires`: drop the absorbed wire's slot and point
the absorbed points' pins at the surviving wire.  (The absorbed points
are not inserted into the survivor's point map — the source destructures
and discards them.) -/
def boardMergeWires (s : BoardState) (id withId : Nat)
    (updateStates : Bool) : BoardState :=
  if ¬ FixedVec.existsAt s.wires id then s
  else
    match FixedVec.get s.wires withId with
    | none => s
    | some w =>
      let s1 := { s with wires := FixedVec.removeAt s.wires withId }
      let heap := w.points.foldl (fun h e =>
        match e.2.pin with
        | some pid => setPinWire h pid (some id)
        | none => h) s1.pinWires
      let s2 := { s1 with pinWires := heap }
      if updateStates then { s2 with wireUpdates := id :: s2.wireUpdates }
      else s2

/-- `ActiveCircuitBoard::set_node_wires`: recolor the grid nodes at the
given positions (only materialized cells are written). -/
def setNodeWires (s : BoardState) (positions : List Pos) (wire : Nat) :
    BoardState :=
  { s with wireNodes := positions.foldl (fun g p =>
      if g.present p then
        let n := g.get p
        g.set p { n with wire := some wire }
      else g) s.wireNodes }

/-- `ActiveCircuitBoard::merge_wires`. -/
def mergeWires (s : BoardState) (wire withId : Nat) (updateState : Bool) :
    BoardState :=
  match FixedVec.get s.wires withId with
  | none => s
  | some ww =>
    if ¬ (FixedVec.existsAt s.wires wire = true) ∨ wire = withId then s
    else
      let s1 := setNodeWires s ww.points.keys wire
      boardMergeWires s1 wire withId updateState

/-- `CircuitBoard::create_wire`: allocate a fresh empty wire in the first
free slot. -/
def createWire (s : BoardState) : BoardState × Nat :=
  let id := FixedVec.firstFreePos s.wires
  ({ s with wires := FixedVec.set s.wires ⟨id, []⟩ id }, id)

/-- `ActiveCircuitBoard::create_wire_intersection_at_node`. -/
def createWireIntersectionAtNode (s : BoardState) (pos : Pos)
    (node : WireNode) (wire : Option Nat) : BoardState × Option Nat :=
  if node.wire.isSome ∨ (node.up = 0 ∧ node.left = 0) then (s, node.wire)
  else
    let wireUp := (findNodeFromNode s node pos true false).map (·.wire)
    let wireLeft := (findNodeFromNode s node pos false false).map (·.wire)
    let resolved : BoardState × Option Nat :=
      match wire with
      | some w => (s, some w)
      | none =>
        match wireUp, wireLeft with
        | none, none => (s, none)
        | none, some l => (s, some l)
        | some u, none => (s, some u)
        | some u, some l =>
          let leftNodes := (FixedVec.get s.wires l).map (fun w => w.points.length)
          let upNodes := (FixedVec.get s.wires u).map (fun w => w.points.length)
          match leftNodes, upNodes with
          | some un, some ln =>
            if un > ln then (mergeWires s u l false, some u)
            else (mergeWires s l u false, some l)
          | _, _ => (s, none)
    match resolved.2 with
    | none => (resolved.1, none)
    | some w => ((setWirePoint resolved.1 pos (some w) true).1, some w)

/-- `ActiveCircuitBoard::create_wire_intersection`. -/
def createWireIntersection (s : BoardState) (pos : Pos)
    (wire : Option Nat) : BoardState × Option Nat :=
  if s.wireNodes.present pos then
    createWireIntersectionAtNode s pos (s.wireNodes.get pos) wire
  else (s, none)

/-- `search_wire_point` from `CircuitBoard::split_wire`: among the given
positions sharing the relevant coordinate with `fromP`, the nearest one on
the requested side (first minimum wins on equal distance). -/
def searchWirePoint (nodes : List Pos) (fromP : Pos)
    (vertical inverse : Bool) : Option Pos :=
  let cands := nodes.filterMap (fun p =>
    let pEq := if vertical then p.x else p.y
    let fEq := if vertical then fromP.x else fromP.y
    if pEq ≠ fEq then none
    else
      let pD := if vertical then p.y else p.x
      let fD := if vertical then fromP.y else fromP.x
      let dist := if inverse then fD - pD else pD - fD
      if dist ≤ 0 then none else some (p, dist))
  (cands.foldl (fun acc c =>
    match acc with
    | none => some c
    | some b => if c.2 < b.2 then some c else some b) none).map (·.1)

/-- The neighbor-flag adjustment of `CircuitBoard::split_wire`'s migration
loop: if a nearest remaining neighbor was found on the axis, its direction
flag toward the removed position is cleared. -/
def adjustNeighbor (m : PMap) (ref : Option Pos) (f : WirePoint → WirePoint) :
    PMap :=
  match ref with
  | some rr =>
    match m.get? rr with
    | some p => m.insert rr (f p)
    | none => m
  | none => m

/-- The body of the `for pos in points` loop of `CircuitBoard::split_wire`,
acting on (old point map, new point map, pin heap); `ptsAll` is the full
position list used by the direction-flag membership checks, `nw` the id of
the wire being created. -/
def splitStep (ptsAll : List Pos) (nw : Nat)
    (acc : PMap × PMap × List (PinId × Option Nat)) (pos : Pos) :
    PMap × PMap × List (PinId × Option Nat) :=
  match acc.1.get? pos with
  | none => acc
  | some point =>
    let oldPts := acc.1.erase pos
    let refRight := searchWirePoint oldPts.keys pos false true
    let refDown := searchWirePoint oldPts.keys pos true true
    let oldPts := adjustNeighbor oldPts refRight
      (fun p => { p with left := false })
    let oldPts := adjustNeighbor oldPts refDown
      (fun p => { p with up := false })
    let lf := point.left &&
      (match searchWirePoint oldPts.keys pos false false with
       | some p => decide (p ∈ ptsAll)
       | none => false)
    let uf := point.up &&
      (match searchWirePoint oldPts.keys pos true false with
       | some p => decide (p ∈ ptsAll)
       | none => false)
    let heap := match point.pin with
      | some pid => setPinWire acc.2.2 pid (some nw)
      | none => acc.2.2
    (oldPts, acc.2.1.insert pos ⟨lf, uf, point.pin⟩, heap)

/-- `CircuitBoard::split_wire`: move the given positions out of the wire's
point map into a freshly allocated wire, recomputing direction flags and
redirecting attached pins. -/
def boardSplitWire (s : BoardState) (id : Nat) (points : List Pos)
    (updateStates : Bool) : BoardState × Option Nat :=
  let newWireId := FixedVec.firstFreePos s.wires
  match FixedVec.get s.wires id with
  | none => (s, none)
  | some w =>
    let r := points.foldl (splitStep points newWireId)
      (w.points, ([] : PMap), s.pinWires)
    let s1 := { s with
      wires := FixedVec.set (FixedVec.set s.wires { w with points := r.1 } id)
        ⟨newWireId, r.2.1⟩ newWireId,
      pinWires := r.2.2 }
    let s2 :=
      if updateStates then
        { s1 with wireUpdates := newWireId :: id :: s1.wireUpdates }
      else s1
    (s2, some newWireId)

/-- `ActiveCircuitBoard::node_neighboring_intersections`: the up-to-four
anchors reachable along the two axes, filtered to the given wire. -/
def nodeNeighboringIntersections (s : BoardState) (pos : Pos)
    (wire : Option Nat) : List Pos :=
  if ¬ (s.wireNodes.present pos = true) then []
  else
    let node := s.wireNodes.get pos
    (List.range 4).foldl (fun acc i =>
      let vertical := i % 2 = 1
      let forward := i / 2 = 1
      match findNodeFromNode s node pos vertical forward with
      | some f =>
        match wire with
        | some v => if v ≠ f.wire then acc else acc ++ [f.pos]
        | none => acc ++ [f.pos]
      | none => acc) []

/-- The flood-fill worker of `split_wires`: a stack-driven collection of
one connected group.  Each productive step removes a position from
`remaining` and pushes at most four neighbors, so
`5 · |remaining| + |queue|` strictly decreases; any fuel of at least
`5 · |remaining| + |queue| + 1` computes the loop's result. -/
def floodGo (s : BoardState) (id : Nat) :
    Nat → List Pos → List Pos → List Pos → List Pos × List Pos
  | _, remaining, [], group => (group, remaining)
  | 0, remaining, _, group => (group, remaining)
  | fuel + 1, remaining, pos :: queue, group =>
    if pos ∈ remaining then
      let remaining' := remaining.erase pos
      let ints := nodeNeighboringIntersections s pos (some id)
      let queue' := (ints.filter (fun q => decide (q ∈ remaining'))).reverse ++ queue
      floodGo s id fuel remaining' queue' (pos :: group)
    else floodGo s id fuel remaining queue group

/-- The outer loop of `split_wires`: repeatedly flood-fill from the first
unvisited point.  Every round removes at least one position, so fuel
`|remaining| + 1` suffices. -/
def splitGroupsGo (s : BoardState) (id : Nat) :
    Nat → List Pos → List (List Pos)
  | 0, _ => []
  | _, [] => []
  | fuel + 1, start :: rest =>
    let remaining := start :: rest
    let r := floodGo s id (5 * remaining.length + 2) remaining [start] []
    r.1 :: splitGroupsGo s id fuel r.2

/-- The index selected by
`groups.iter().enumerate().max_by(|a, b| a.1.len().cmp(&b.1.len()))`:
the last index of maximal length. -/
def biggestIdx (groups : List (List Pos)) : Nat :=
  (groups.foldl (fun (acc : Nat × Nat × Nat) g =>
    if g.length ≥ acc.2.2 then (acc.1 + 1, acc.1, g.length)
    else (acc.1 + 1, acc.2.1, acc.2.2)) (0, 0, 0)).2.1

/-- One round of the group loop of `ActiveCircuitBoard::split_wires`: a
group whose index is not the biggest is moved into a fresh wire and its
tile nodes are repointed; the biggest group only records the original
id. -/
def splitRound (id biggest : Nat) (acc : BoardState × Nat × List Nat)
    (group : List Pos) : BoardState × Nat × List Nat :=
  if acc.2.1 ≠ biggest then
    let sw := boardSplitWire acc.1 id group false
    match sw.2 with
    | some nw => (setNodeWires sw.1 group nw, acc.2.1 + 1, acc.2.2 ++ [nw])
    | none => (sw.1, acc.2.1 + 1, acc.2.2)
  else (acc.1, acc.2.1 + 1, acc.2.2 ++ [id])

/-- `ActiveCircuitBoard::split_wires`. -/
def splitWires (s : BoardState) (id : Nat) (updateStates : Bool) :
    BoardState :=
  match FixedVec.get s.wires id with
  | none => s
  | some w =>
    let remaining := PMap.keys w.points
    let groups := splitGroupsGo s id (remaining.length + 1) remaining
    if groups.length ≤ 1 then s
    else
      let biggest := biggestIdx groups
      let r := groups.foldl (splitRound id biggest) (s, 0, [])
      let s' := r.1
      if updateStates then
        { s' with wireUpdates := r.2.2.reverse ++ s'.wireUpdates }
      else s'

/-- `ActiveCircuitBoard::remove_intersection_at_node`. -/
def removeIntersectionAtNode (s : BoardState) (pos : Pos) (node : WireNode)
    (split : Bool) : BoardState :=
  let pinGuard : Bool :=
    match node.wire with
    | some w =>
      match FixedVec.get s.wires w with
      | some wr =>
        match wr.points.get? pos with
        | some pt => pt.pin.isSome
        | none => false
      | none => false
    | none => false
  if node.wire = none ∨ (node.up = 0 ∧ node.left = 0) ∨ pinGuard = true then s
  else
    let split' := split && decide (0 < node.up) && decide (0 < node.left)
    let r := setWirePoint s pos none (!split')
    if split' then
      match r.2 with
      | some w => splitWires r.1 w true
      | none => r.1
    else r.1

/-- `ActiveCircuitBoard::try_toggle_node_intersection`. -/
def tryToggleNodeIntersection (s : BoardState) (pos : Pos) : BoardState :=
  if ¬ (s.wireNodes.present pos = true) then s
  else
    let node := s.wireNodes.get pos
    if node.isEmpty then s
    else
      let center := node.wire.isSome
      let lft := decide (0 < node.left)
      let upb := decide (0 < node.up)
      let rgt := (center || lft) &&
        (let n := s.wireNodes.get (pos.step false 1)
         decide (n.left = (if center then 1 else node.left + 1)))
      let dwn := (center || upb) &&
        (let n := s.wireNodes.get (pos.step true 1)
         decide (n.up = (if center then 1 else node.up + 1)))
      if upb ≠ dwn ∨ lft ≠ rgt then s
      else if center then removeIntersectionAtNode s pos node true
      else (createWireIntersectionAtNode s pos node none).1

end RLS

namespace RLS

/-- An axis-aligned wire segment (`WirePart`). -/
structure WirePart where
  pos : Pos
  length : Nat
  vertical : Bool
deriving DecidableEq, Repr

/-- The `i`-th tile of a segment. -/
def segPos (part : WirePart) (i : Nat) : Pos :=
  part.pos.step part.vertical (i : Int)

/-- `ActiveCircuitBoard::optimize_wire_part`. -/
def optimizeWirePart (s : BoardState) (part : WirePart) : Option WirePart :=
  let startFound :=
    if s.wireNodes.present part.pos then
      let n := s.wireNodes.get part.pos
      if n.wire.isSome then none
      else findNodeFromNode s n part.pos part.vertical true
    else none
  let partPos :=
    match startFound with
    | some f => f.pos
    | none => part.pos
  let partLen : Int :=
    match startFound with
    | some f => (part.length : Int) - f.distance
    | none => (part.length : Int)
  let endPos := partPos.step part.vertical partLen
  let endDist : Option Nat :=
    if s.wireNodes.present endPos then
      (findNodeFromNode s (s.wireNodes.get endPos) endPos part.vertical
        false).map (·.distance)
    else none
  let partLen : Int :=
    match endDist with
    | some d => partLen - d
    | none => partLen
  if partLen ≤ 0 then none
  else some ⟨partPos, partLen.toNat, part.vertical⟩

/-- Insertion into the `wires_crossed` hash set: deduplicating, keeping
first-insertion order. -/
def insertDedup (l : List Nat) (w : Nat) : List Nat :=
  if w ∈ l then l else l ++ [w]

/-- The `wires_crossed` scan of `place_wire_part`: full wires-at-tile
resolution at the two endpoints, anchors only at interior tiles. -/
def wiresCrossedOf (s : BoardState) (part : WirePart) : List Nat :=
  (List.range (part.length + 1)).foldl (fun acc i =>
    let pos := segPos part i
    if i = 0 ∨ i = part.length then
      match wiresAt s pos with
      | .twNone => acc
      | .one w _ => insertDedup acc w
      | .two l u => insertDedup (insertDedup acc l) u
    else
      match (s.wireNodes.get pos).wire with
      | some w => insertDedup acc w
      | none => acc) []

/-- The `pins_crossed` scan of `place_wire_part`. -/
def pinsCrossedOf (s : BoardState) (part : WirePart) : List (Pos × PinId) :=
  (List.range (part.length + 1)).foldl (fun acc i =>
    let pos := segPos part i
    match pinAt s pos with
    | some pid => (pos, pid) :: acc
    | none => acc) []

/-- Lookup in the `pins_crossed` map. -/
def lookupPin (m : List (Pos × PinId)) (p : Pos) : Option PinId :=
  (m.find? (fun e => e.1 = p)).map (·.2)

/-- The survivor chosen in the two-or-more case of `place_wire_part`:
over the occupied wire slots in index order, the last wire of maximal
point count among those crossed (`Iterator::max_by` keeps the last
maximum). -/
def mainWireOf (s : BoardState) (wc : List Nat) : Option Nat :=
  (((FixedVec.entries s.wires).filter (fun w => w.id ∈ wc)).foldl
    (fun acc w =>
      match acc with
      | none => some w
      | some b => if w.points.length ≥ b.points.length then some w else some b)
    none).map (·.id)

/-- The anchor-and-distance writing loop of `place_wire_part`, iterating
`i = 0 … part.length` with the running distance counter. -/
def placeLoopGo (part : WirePart) (newWire : Nat)
    (pins : List (Pos × PinId)) : BoardState → Nat → Nat → Nat → BoardState
  | s, _, _, 0 => s
  | s, i, dist, rem + 1 =>
    let pos := segPos part i
    let node := s.wireNodes.get pos
    let node1 := if 0 < i then node.setPointer part.vertical dist else node
    let crossedPin := (lookupPin pins pos).isSome
    let crossedWire := node.wire.isSome
    let point := crossedPin || crossedWire
    let dist' := if point then 1 else dist + 1
    let isPoint := i = 0 ∨ i = part.length ∨ point = true
    let node2 := if isPoint then { node1 with wire := some newWire } else node1
    let s1 := { s with wireNodes := s.wireNodes.set pos node2 }
    let s2 :=
      if isPoint then
        wireAddPoint s1 newWire pos false (decide (0 < node2.left))
          (decide (0 < node2.up)) (lookupPin pins pos)
      else s1
    placeLoopGo part newWire pins s2 (i + 1) dist' rem

/-- The target-wire resolution step of `place_wire_part`: no crossed wire
allocates a fresh one, a single crossed wire is reused, two or more pick
the survivor via `mainWireOf` and merge every other crossed wire into it.
(The empty `mainWireOf` case is the source's
`expect("Some matching wires")` panic; it is unreachable whenever any
crossed wire exists.) -/
def resolveTargetWire (s : BoardState) (wc : List Nat) : BoardState × Nat :=
  match wc with
  | [] => createWire s
  | [w] => (s, w)
  | _ =>
    match mainWireOf s wc with
    | none => (s, 0)
    | some main =>
      (wc.foldl (fun st w => if w ≠ main then mergeWires st main w false
        else st) s, main)

/-- The number of points stored for a wire slot (0 when the slot is
free). -/
def ptsLen (s : BoardState) (w : Nat) : Nat :=
  match FixedVec.get s.wires w with
  | some wr => wr.points.length
  | none => 0

/-- `ActiveCircuitBoard::place_wire_part`. -/
def placeWirePart (s : BoardState) (part0 : WirePart) : BoardState :=
  match optimizeWirePart s part0 with
  | none => s
  | some part =>
    let pins := pinsCrossedOf s part
    let wc := wiresCrossedOf s part
    let r := resolveTargetWire s wc
    let newWire := r.2
    let s2 := (setWirePoint r.1 part.pos (some newWire) false).1
    let s3 := (setWirePoint s2 (segPos part part.length) (some newWire) false).1
    let s4 := placeLoopGo part newWire pins s3 0 0 (part.length + 1)
    { s4 with wireUpdates := newWire :: s4.wireUpdates }

/-- `ActiveCircuitBoard::place_circuit`: reject on any footprint overlap,
otherwise create the circuit, write its nodes, wire its pins, and
schedule its updates. -/
def placeCircuit (s : BoardState) (placePos : Pos) (preview : Preview) :
    BoardState :=
  let occupied := (List.range preview.sizeY).any (fun j =>
    (List.range preview.sizeX).any (fun i =>
      match CGrid.get? s.circuitNodes ⟨placePos.x + i, placePos.y + j⟩ with
      | some n => n.circuit.isSome
      | none => false))
  if occupied then s
  else
    let cid := FixedVec.firstFreePos s.circuits
    let circ : Circuit := ⟨cid, placePos,
      preview.pinOffsets.enum.map (fun e => ⟨e.2, (cid, e.1)⟩)⟩
    let s1 := { s with circuits := FixedVec.set s.circuits circ cid }
    let cg := (List.range preview.sizeY).foldl (fun g (j : Nat) =>
      (List.range preview.sizeX).foldl (fun g (i : Nat) =>
        CGrid.set g ⟨placePos.x + (i : Int), placePos.y + (j : Int)⟩
          ⟨some cid, (i, j)⟩) g)
      s1.circuitNodes
    let s2 := { s1 with circuitNodes := cg }
    let s3 := circ.pins.foldl (fun st pb =>
      let pos : Pos := ⟨placePos.x + pb.pinPos.1, placePos.y + pb.pinPos.2⟩
      let r := createWireIntersection st pos none
      match r.2 with
      | some wireId =>
        let st1 := r.1
        match FixedVec.get st1.wires wireId with
        | some wr =>
          let newPts :=
            match wr.points.get? pos with
            | some pt => wr.points.insert pos { pt with pin := some pb.pid }
            | none => wr.points
          let st2 := { st1 with
            wires := FixedVec.set st1.wires { wr with points := newPts } wireId }
          { st2 with pinWires := setPinWire st2.pinWires pb.pid (some wireId) }
        | none => st1
      | none => r.1) s2
    let s4 := { s3 with circuitUpdates := cid :: s3.circuitUpdates }
    match preview.updateInterval with
    | some dur =>
      let s5 := { s4 with updates := cid :: s4.updates }
      { s5 with intervalUpdates := (cid, dur) :: s5.intervalUpdates }
    | none => s4

end RLS

namespace RLS

namespace Sim

/-- The 4-valued logic domain (`WireState` in the source:
`None`/`True`/`False`/`Error`; the spec's Undriven/True/False/Conflict).
Modelled from the spec: `Undriven` is the default value. -/
inductive WireState where
  | wsNone
  | wsTrue
  | wsFalse
  | wsError
deriving DecidableEq, Repr

/-- Per-circuit simulation record: the pin value store
(`CircuitState::pins`, a `FixedVec<WireState>`; absent entries read as the
default). -/
structure CircuitState where
  pins : FixedVec WireState
deriving DecidableEq, Repr

/-- One simulation state instance (`State`, modelled from the spec):
per-circuit pin values plus a log of requested wire recomputations. -/
structure SimState where
  circuits : List (Nat × CircuitState)
  wireUpdates : List (Nat × Bool)
deriving DecidableEq, Repr

/-- `State::read_circuit`: the circuit's state record, if it exists. -/
def SimState.readCircuit (st : SimState) (cid : Nat) : Option CircuitState :=
  (st.circuits.find? (fun e => e.1 = cid)).map (·.2)

/-- `State::get_circuit`: the circuit's state record, created empty when
absent. -/
def SimState.getCircuitState (st : SimState) (cid : Nat) : CircuitState :=
  match st.readCircuit cid with
  | some cs => cs
  | none => ⟨[]⟩

/-- Store a circuit's state record. -/
def SimState.setCircuit (st : SimState) (cid : Nat) (cs : CircuitState) :
    SimState :=
  { st with circuits := (cid, cs) :: st.circuits.eraseP (fun e => e.1 = cid) }

/-- The value of one pin as read through
`pins.get_clone(id).unwrap_or_default()` on `read_circuit` (also the body
of `CircuitPinInfo::get_state`). -/
def readPin (st : SimState) (cid idx : Nat) : WireState :=
  match st.readCircuit cid with
  | some cs => (FixedVec.get cs.pins idx).getD .wsNone
  | none => .wsNone

/-- The pin fields `CircuitPinInfo::set_state` reads: the stable index
inside the owning circuit and the connected wire. -/
structure CircuitPinR where
  idx : Nat
  wire : Option Nat
deriving DecidableEq, Repr

/-- `CircuitPinInfo::set_state`: compare against the stored value; when
different, store the new value and request recomputation of the connected
wire, if any. -/
def setState (st : SimState) (ctxCid : Nat) (pin : CircuitPinR)
    (value : WireState) : SimState :=
  let current :=
    match st.readCircuit ctxCid with
    | some cs => (FixedVec.get cs.pins pin.idx).getD .wsNone
    | none => .wsNone
  if current = value then st
  else
    let cs := st.getCircuitState ctxCid
    let st1 := st.setCircuit ctxCid ⟨FixedVec.set cs.pins value pin.idx⟩
    match pin.wire with
    | some w => { st1 with wireUpdates := (w, false) :: st1.wireUpdates }
    | none => st1

/-- The NOT gate's two pins; `Circuit::create` enumerates the pins of
`create_pins`, so the input (`pins[0]`) gets index 0 and the output
(`pins[1]`) index 1. -/
structure NotGate where
  input : CircuitPinR
  output : CircuitPinR
deriving DecidableEq, Repr

/-- A NOT gate with the given pin wiring. -/
def notGate (wIn wOut : Option Nat) : NotGate :=
  ⟨⟨0, wIn⟩, ⟨1, wOut⟩⟩

/-- The NOT gate's `update_signals`: read the input pin, invert it with
the source's 4-way match, write the output pin. -/
def notUpdateSignals (gate : NotGate) (st : SimState) (cid : Nat) :
    SimState :=
  let v := readPin st cid gate.input.idx
  let v' : WireState :=
    match v with
    | .wsNone => .wsNone
    | .wsTrue => .wsFalse
    | .wsFalse => .wsTrue
    | .wsError => .wsError
  setState st cid gate.output v'

end Sim

/-- `usize::MAX` on the 64-bit targets the source builds for. -/
def usizeMax : Nat := 2 ^ 64 - 1

/-- `OptionalInt<usize>`: a `usize` whose sentinel `NONE_VALUE` is
`usize::MAX` (the unsigned branch of the `impl_optional_int!` macro). -/
structure OptionalUsize where
  raw : Nat
deriving DecidableEq, Repr

/-- `OptionalInt::set`. -/
def OptionalUsize.setVal (_o : OptionalUsize) (v : Option Nat) :
    OptionalUsize :=
  ⟨match v with
   | none => usizeMax
   | some x => x⟩

/-- `OptionalInt::get`. -/
def OptionalUsize.getVal (o : OptionalUsize) : Option Nat :=
  if o.raw = usizeMax then none else some o.raw

/-- `OptionalInt::is_none`. -/
def OptionalUsize.isNoneVal (o : OptionalUsize) : Bool :=
  o.raw = usizeMax

/-- `isize::MIN` on 64-bit targets. -/
def isizeMin : Int := -(2 ^ 63)

/-- `OptionalInt<isize>`: sentinel `NONE_VALUE` is `isize::MIN` (the
signed branch of the macro). -/
structure OptionalIsize where
  raw : Int
deriving DecidableEq, Repr

/-- `OptionalInt::set` (signed). -/
def OptionalIsize.setVal (_o : OptionalIsize) (v : Option Int) :
    OptionalIsize :=
  ⟨match v with
   | none => isizeMin
   | some x => x⟩

/-- `OptionalInt::get` (signed). -/
def OptionalIsize.getVal (o : OptionalIsize) : Option Int :=
  if o.raw = isizeMin then none else some o.raw

end RLS


namespace RLS

/-- The wire ids a tile position resolves to through the wires-at-tile
query; tile positions belong to a common wire when these lists
intersect. -/
def tileWireIds (s : BoardState) (p : Pos) : List Nat :=
  match wiresAt s p with
  | .twNone => []
  | .one w _ => [w]
  | .two l u => [l, u]

/-- Whether two tile positions belong to a common wire. -/
def sharesWire (s : BoardState) (p q : Pos) : Bool :=
  (tileWireIds s p).any (fun w => w ∈ tileWireIds s q)

/-- A board reached by two placements: a horizontal wire of length 5 at
the origin, then a vertical wire of length 1 at (2,0) whose start anchors
onto the horizontal run. -/
def crossBoard : BoardState :=
  placeWirePart (placeWirePart BoardState.empty ⟨⟨0, 0⟩, 5, false⟩)
    ⟨⟨2, 0⟩, 1, true⟩

/-- A board with a plus-shaped wire around the anchor (2,0): a horizontal
wire (0,0)–(6,0) extended to (8,0), crossed by a vertical wire
(2,-2)–(2,2), merged by one intersection toggle at (2,0), with the upper
vertical arm (2,-3)–(2,-2) added to the merged wire's point map
afterwards. -/
def plusBoard : BoardState :=
  placeWirePart (placeWirePart (tryToggleNodeIntersection
    (placeWirePart (placeWirePart BoardState.empty ⟨⟨0, 0⟩, 6, false⟩)
      ⟨⟨2, -2⟩, 4, true⟩) ⟨2, 0⟩) ⟨⟨2, -3⟩, 3, true⟩) ⟨⟨6, 0⟩, 2, false⟩

/-- `plusBoard` after two intersection toggles at the anchor (2,0). -/
def plusBoardToggledTwice : BoardState :=
  tryToggleNodeIntersection (tryToggleNodeIntersection plusBoard ⟨2, 0⟩) ⟨2, 0⟩

end RLS

namespace RLS

/-- A one-anchor board whose single wire point carries a connected pin:
the anchor (0,0) belongs to wire 0, whose point there is attached to pin
(0,0) of circuit 0. -/
def pinBoard : BoardState :=
  ⟨[(⟨0, 0⟩, ⟨some 0, 1, 0⟩)], [],
   [some ⟨0, [(⟨0, 0⟩, ⟨false, false, some (0, 0)⟩)]⟩], [], [], [], [], [], []⟩

/-- A board whose circuit-node grid already holds a circuit at the
origin. -/
def occBoard : BoardState :=
  ⟨[], [(⟨0, 0⟩, ⟨some 0, (0, 0)⟩)], [], [some ⟨0, ⟨0, 0⟩, []⟩],
   [], [], [], [], []⟩

end RLS

namespace RLS

/-!  Basic container lemmas used by the claim proofs.  -/

theorem List.find?_eraseP_of_ne {α : Type} (l : List α) (q r : α → Bool)
    (h : ∀ a, r a = true → q a = false) :
    (l.eraseP r).find? q = l.find? q := by
  induction l with
  | nil => rfl
  | cons a l ih =>
    by_cases hr : r a = true
    · rw [List.eraseP_cons_of_pos hr]
      have hq : q a = false := h a hr
      rw [List.find?_cons_of_neg _ (by simp [hq])]
    · rw [List.eraseP_cons_of_neg (by simp_all)]
      by_cases hq : q a = true
      · rw [List.find?_cons_of_pos _ hq, List.find?_cons_of_pos _ hq]
      · rw [List.find?_cons_of_neg _ (by simp_all),
          List.find?_cons_of_neg _ (by simp_all), ih]

theorem Grid.get_set (g : Grid) (p : Pos) (n : WireNode) (q : Pos) :
    (g.set p n).get q = if q = p then n else g.get q := by
  unfold Grid.set Grid.get
  by_cases h : q = p
  · subst h
    rw [List.find?_cons_of_pos _ (by simp)]
    simp
  · rw [List.find?_cons_of_neg _ (by simp [Ne.symm h])]
    rw [List.find?_eraseP_of_ne]
    · simp [h]
    · intro a ha
      simp only [decide_eq_true_eq] at ha
      simp [ha, Ne.symm h]

theorem Grid.get_setIfPresent (g : Grid) (p : Pos) (n : WireNode) (q : Pos) :
    (g.setIfPresent p n).get q =
      if g.present p = true ∧ q = p then n else g.get q := by
  unfold Grid.setIfPresent
  by_cases hp : g.present p = true
  · simp only [hp, if_pos, true_and, Grid.get_set]
  · simp [hp]

theorem FixedVec.get_firstFreePos {α : Type} (v : FixedVec α) :
    FixedVec.get v (FixedVec.firstFreePos v) = none := by
  induction v with
  | nil => rfl
  | cons x rest ih =>
    match x with
    | none => rfl
    | some a => simpa [FixedVec.firstFreePos, FixedVec.get] using ih

theorem FixedVec.get_set_at {α : Type} (v : FixedVec α) (a : α) (i j : Nat) :
    FixedVec.get (FixedVec.set v a i) j =
      if j = i then some a else FixedVec.get v j := by
  induction v generalizing i j with
  | nil =>
    induction i generalizing j with
    | zero => cases j <;> simp [FixedVec.set, FixedVec.get]
    | succ i ih =>
      cases j with
      | zero => simp [FixedVec.set, FixedVec.get]
      | succ j => simpa [FixedVec.set, FixedVec.get] using ih j
  | cons x rest ih =>
    cases i with
    | zero => cases j <;> simp [FixedVec.set, FixedVec.get]
    | succ i =>
      cases j with
      | zero => simp [FixedVec.set, FixedVec.get]
      | succ j => simpa [FixedVec.set, FixedVec.get] using ih i j

theorem FixedVec.get_removeAt {α : Type} (v : FixedVec α) (i j : Nat) :
    FixedVec.get (FixedVec.removeAt v i) j =
      if j = i then none else FixedVec.get v j := by
  induction v generalizing i j with
  | nil => cases j <;> simp [FixedVec.removeAt, FixedVec.get]
  | cons x rest ih =>
    cases i with
    | zero => cases j <;> simp [FixedVec.removeAt, FixedVec.get]
    | succ i =>
      cases j with
      | zero => simp [FixedVec.removeAt, FixedVec.get]
      | succ j => simpa [FixedVec.removeAt, FixedVec.get] using ih i j

theorem FixedVec.get_updateAt {α : Type} (v : FixedVec α) (i j : Nat)
    (f : α → α) :
    FixedVec.get (FixedVec.updateAt v i f) j =
      if j = i then (FixedVec.get v i).map f else FixedVec.get v j := by
  unfold FixedVec.updateAt
  cases h : FixedVec.get v i with
  | none =>
    by_cases hj : j = i
    · subst hj
      simp [h]
    · simp [hj]
  | some a =>
    rw [FixedVec.get_set_at]
    by_cases hj : j = i
    · subst hj
      simp [h]
    · simp [hj]

end RLS

namespace RLS

theorem SimState.readCircuit_setCircuit (st : Sim.SimState) (cid c : Nat)
    (cs : Sim.CircuitState) :
    Sim.SimState.readCircuit (st.setCircuit cid cs) c =
      if c = cid then some cs else st.readCircuit c := by
  unfold Sim.SimState.setCircuit Sim.SimState.readCircuit
  by_cases h : c = cid
  · subst h
    rw [List.find?_cons_of_pos _ (by simp)]
    simp
  · simp only [h, if_false]
    rw [List.find?_cons_of_neg _ (by simp [Ne.symm h])]
    rw [List.find?_eraseP_of_ne]
    intro a ha
    simp only [decide_eq_true_eq] at ha
    simp [ha, Ne.symm h]

theorem Sim.readPin_setCircuit (st : Sim.SimState) (cid : Nat)
    (cs : Sim.CircuitState) (c i : Nat) :
    Sim.readPin (st.setCircuit cid cs) c i =
      if c = cid then (FixedVec.get cs.pins i).getD .wsNone
      else Sim.readPin st c i := by
  unfold Sim.readPin
  rw [SimState.readCircuit_setCircuit]
  by_cases hc : c = cid <;> simp [hc]

theorem Sim.readPin_setState (st : Sim.SimState) (cid : Nat)
    (pin : Sim.CircuitPinR) (v : Sim.WireState) (c i : Nat) :
    Sim.readPin (Sim.setState st cid pin v) c i =
      if c = cid ∧ i = pin.idx then v else Sim.readPin st c i := by
  by_cases hcur :
      (match st.readCircuit cid with
       | some cs => (FixedVec.get cs.pins pin.idx).getD .wsNone
       | none => .wsNone) = v
  · have heq : Sim.setState st cid pin v = st := by
      unfold Sim.setState
      rw [if_pos hcur]
    rw [heq]
    by_cases hc : c = cid ∧ i = pin.idx
    · obtain ⟨hc1, hc2⟩ := hc
      subst hc1; subst hc2
      simp only [and_self, if_pos]
      unfold Sim.readPin
      exact hcur
    · simp [hc]
  · have hstep : Sim.readPin (Sim.setState st cid pin v) c i =
        Sim.readPin
          (st.setCircuit cid
            ⟨FixedVec.set (st.getCircuitState cid).pins v pin.idx⟩) c i := by
      unfold Sim.setState
      rw [if_neg hcur]
      cases pin.wire <;> rfl
    rw [hstep, Sim.readPin_setCircuit]
    by_cases hc : c = cid
    · subst hc
      simp only [if_pos]
      rw [FixedVec.get_set_at]
      by_cases hi : i = pin.idx
      · subst hi
        simp
      · simp only [hi, if_false, and_false]
        unfold Sim.SimState.getCircuitState
        unfold Sim.readPin
        cases hrc : st.readCircuit c with
        | some cs => simp
        | none => simp [FixedVec.get]
    · have : ¬ (c = cid ∧ i = pin.idx) := fun hh => hc hh.1
      simp [hc, this]

end RLS

namespace RLS

/-- C1: the distance-pointer invariant — every non-anchor node with
`left = d > 0` has an anchor exactly `d` steps to the left with only
non-anchor nodes of contiguously decreasing distances strictly between —
is violated on a state reached by two wire placements: in `crossBoard`
(a horizontal wire of length 5 at the origin crossed by a vertical wire
anchored at (2,0)), the node (4,0) is a non-anchor with `left = 4`, yet
(2,0), strictly between it and (0,0), is an anchor, and (3,0) stores
distance 1 instead of 3.  The source's `fix_pointers` loop re-reads
`pos + dir` every iteration instead of advancing, so only the immediate
neighbor of a changed anchor is ever recomputed. -/
theorem c1_pointer_chain_violated :
    (crossBoard.wireNodes.get ⟨4, 0⟩).wire = none ∧
    (crossBoard.wireNodes.get ⟨4, 0⟩).left = 4 ∧
    ((crossBoard.wireNodes.get ⟨2, 0⟩).wire).isSome = true ∧
    (crossBoard.wireNodes.get ⟨3, 0⟩).left = 1 ∧
    ((crossBoard.wireNodes.get ⟨0, 0⟩).wire).isSome = true := by
  decide

/-- C4: toggling the same acting anchor twice does not restore wire
membership.  In `plusBoard` the tile (2,0) is an anchor with equal
up/down and left/right continuations and no connected pin, and the tiles
(2,2) and (2,-2) belong to a common wire; after toggling (2,0) twice,
(2,2) is left referencing the freed id of the merged-away wire and no
longer shares a wire with (2,-2).  (The first toggle's split cannot see
(2,2) because `CircuitBoard::merge_wires` had dropped its point record;
the second toggle's re-merge then picks the other wire as survivor and
frees the id that (2,2)'s tile still references.) -/
theorem c4_toggle_not_idempotent :
    ((plusBoard.wireNodes.get ⟨2, 0⟩).wire).isSome = true ∧
    0 < (plusBoard.wireNodes.get ⟨2, 0⟩).left ∧
    0 < (plusBoard.wireNodes.get ⟨2, 0⟩).up ∧
    (plusBoard.wireNodes.get ⟨3, 0⟩).left = 1 ∧
    (plusBoard.wireNodes.get ⟨2, 1⟩).up = 1 ∧
    (match FixedVec.get plusBoard.wires 0 with
     | some w =>
       match w.points.get? ⟨2, 0⟩ with
       | some pt => pt.pin.isNone
       | none => false
     | none => false) = true ∧
    sharesWire plusBoard ⟨2, 2⟩ ⟨2, -2⟩ = true ∧
    sharesWire plusBoardToggledTwice ⟨2, 2⟩ ⟨2, -2⟩ = false := by
  decide

/-- C5: a wire point with a connected pin makes its anchor permanent:
`remove_intersection_at_node` (and hence the toggle that dispatches to
it) returns without modifying any part of the board state. -/
theorem c5_pin_forces_permanent_anchor (s : BoardState) (pos : Pos)
    (sp : Bool) (w : Nat) (wr : Wire) (pt : WirePoint)
    (hw : (s.wireNodes.get pos).wire = some w)
    (hwr : FixedVec.get s.wires w = some wr)
    (hpt : wr.points.get? pos = some pt)
    (hpin : pt.pin.isSome = true) :
    removeIntersectionAtNode s pos (s.wireNodes.get pos) sp = s ∧
    tryToggleNodeIntersection s pos = s := by
  have hrem : ∀ b, removeIntersectionAtNode s pos (s.wireNodes.get pos) b = s := by
    intro b
    simp [removeIntersectionAtNode, hw, hwr, hpt, hpin]
  refine ⟨hrem sp, ?_⟩
  unfold tryToggleNodeIntersection
  by_cases hp : s.wireNodes.present pos = true
  · simp only [hp, not_true, if_false]
    rw [if_neg (show ¬ ((s.wireNodes.get pos).isEmpty = true) by
      simp [WireNode.isEmpty, hw])]
    split
    · split
      · rfl
      · exact hrem true
    · next hcenter => exact absurd (by simp [hw]) hcenter
  · simp [hp]

end RLS

namespace RLS

/-- C5 witness: on `pinBoard`, whose anchor (0,0) carries a pinned wire
point, removal and toggling leave the state untouched. -/
theorem c5_pin_forces_permanent_anchor_witness :
    removeIntersectionAtNode pinBoard ⟨0, 0⟩
        (pinBoard.wireNodes.get ⟨0, 0⟩) true = pinBoard ∧
    tryToggleNodeIntersection pinBoard ⟨0, 0⟩ = pinBoard :=
  c5_pin_forces_permanent_anchor pinBoard ⟨0, 0⟩ true 0
    ⟨0, [(⟨0, 0⟩, ⟨false, false, some (0, 0)⟩)]⟩
    ⟨false, false, some (0, 0)⟩ (by decide) (by decide) (by decide) (by decide)

/-- C7: `CircuitPinInfo::set_state` with the pin's currently stored value
changes nothing; with a different value it stores exactly that value for
that pin, requests recomputation of the connected wire (if any), and
leaves every other pin's value unchanged. -/
theorem c7_set_state_change_detection (st : Sim.SimState) (cid : Nat)
    (pin : Sim.CircuitPinR) (v : Sim.WireState) :
    (Sim.readPin st cid pin.idx = v → Sim.setState st cid pin v = st) ∧
    (Sim.readPin st cid pin.idx ≠ v →
      Sim.readPin (Sim.setState st cid pin v) cid pin.idx = v ∧
      (∀ c i, ¬ (c = cid ∧ i = pin.idx) →
        Sim.readPin (Sim.setState st cid pin v) c i = Sim.readPin st c i) ∧
      (Sim.setState st cid pin v).wireUpdates =
        (match pin.wire with
         | some w => (w, false) :: st.wireUpdates
         | none => st.wireUpdates)) := by
  constructor
  · intro h
    unfold Sim.setState
    rw [if_pos]
    exact h
  · intro h
    refine ⟨?_, ?_, ?_⟩
    · rw [Sim.readPin_setState]
      simp
    · intro c i hci
      rw [Sim.readPin_setState]
      simp [hci]
    · have hne : ¬ ((match st.readCircuit cid with
        | some cs => (FixedVec.get cs.pins pin.idx).getD .wsNone
        | none => .wsNone) = v) := h
      unfold Sim.setState
      rw [if_neg hne]
      cases pin.wire <;> rfl

/-- C7 witness: writing `wsTrue` to pin 0 of circuit 0 on the empty
simulation state (whose stored value is the default) stores that value. -/
theorem c7_set_state_change_detection_witness :
    Sim.readPin
      (Sim.setState (⟨[], []⟩ : Sim.SimState) 0 ⟨0, some 7⟩ .wsTrue) 0 0 =
      .wsTrue :=
  ((c7_set_state_change_detection ⟨[], []⟩ 0 ⟨0, some 7⟩ .wsTrue).2
    (by decide)).1

/-- C8: one invocation of the NOT gate's `update_signals` makes the
output pin (index 1) the source's 4-way inverse of the input pin
(index 0) — True to False, False to True, Undriven and Error to
themselves — and leaves the input pin unchanged. -/
theorem c8_not_gate_inversion (st : Sim.SimState) (cid : Nat)
    (wIn wOut : Option Nat) :
    Sim.readPin (Sim.notUpdateSignals (Sim.notGate wIn wOut) st cid) cid 1 =
      (match Sim.readPin st cid 0 with
       | .wsNone => .wsNone
       | .wsTrue => .wsFalse
       | .wsFalse => .wsTrue
       | .wsError => .wsError) ∧
    Sim.readPin (Sim.notUpdateSignals (Sim.notGate wIn wOut) st cid) cid 0 =
      Sim.readPin st cid 0 := by
  unfold Sim.notUpdateSignals Sim.notGate
  constructor
  · rw [Sim.readPin_setState]
    simp
  · rw [Sim.readPin_setState]
    simp

/-- C9: `OptionalInt` uses `usize::MAX` as the unsigned none-sentinel
(`isize::MIN` for the signed instance): `set(Some(v))` then `get()`
returns `Some(v)` for every non-sentinel `v`, while the sentinel itself
reads back as `None` — so a wire or circuit id equal to `usize::MAX`
cannot be stored in a tile node. -/
theorem c9_optional_int_sentinel (o : OptionalUsize) (v : Nat)
    (p : OptionalIsize) (w : Int) (hv : v ≠ usizeMax) (hw : w ≠ isizeMin) :
    (o.setVal (some v)).getVal = some v ∧
    (o.setVal (some usizeMax)).getVal = none ∧
    (o.setVal none).getVal = none ∧
    (p.setVal (some w)).getVal = some w ∧
    (p.setVal (some isizeMin)).getVal = none := by
  unfold OptionalUsize.setVal OptionalUsize.getVal OptionalIsize.setVal
    OptionalIsize.getVal
  simp [hv, hw]

/-- C9 witness: value 5 round-trips through the unsigned store, value -3
through the signed one, and both sentinels read back as absent. -/
theorem c9_optional_int_sentinel_witness :
    ((OptionalUsize.mk 0).setVal (some 5)).getVal = some 5 ∧
    ((OptionalUsize.mk 0).setVal (some usizeMax)).getVal = none ∧
    ((OptionalUsize.mk 0).setVal none).getVal = none ∧
    ((OptionalIsize.mk 0).setVal (some (-3))).getVal = some (-3) ∧
    ((OptionalIsize.mk 0).setVal (some isizeMin)).getVal = none :=
  c9_optional_int_sentinel ⟨0⟩ 5 ⟨0⟩ (-3) (by decide) (by decide)

/-- C10: `ActiveCircuitBoard::merge_wires` is a complete no-op whenever
the two ids are equal or either id does not name an existing wire; in
particular merging a wire into itself never removes it. -/
theorem c10_merge_wires_noop (s : BoardState) (wire withId : Nat)
    (us : Bool)
    (h : wire = withId ∨ FixedVec.get s.wires wire = none ∨
      FixedVec.get s.wires withId = none) :
    mergeWires s wire withId us = s := by
  unfold mergeWires
  cases hw : FixedVec.get s.wires withId with
  | none => rfl
  | some ww =>
    rcases h with h | h | h
    · subst h
      simp
    · simp [FixedVec.existsAt, h]
    · rw [h] at hw
      exact absurd hw (by simp)

/-- C10 witness: merging wire 0 of `pinBoard` into itself leaves the
board unchanged. -/
theorem c10_merge_wires_noop_witness :
    mergeWires pinBoard 0 0 true = pinBoard :=
  c10_merge_wires_noop pinBoard 0 0 true (Or.inl rfl)

end RLS

namespace RLS

/-- C6: `place_circuit` checks every tile of the footprint before writing
anything; if any covered tile already holds a circuit the operation is
rejected and the board state — circuits, circuit nodes, wires, pins,
update schedules — is returned exactly as it was. -/
theorem c6_place_circuit_atomic (s : BoardState) (pos : Pos)
    (preview : Preview)
    (h : ∃ j, j < preview.sizeY ∧ ∃ i, i < preview.sizeX ∧
      ∃ n, CGrid.get? s.circuitNodes ⟨pos.x + (i : Int), pos.y + (j : Int)⟩ =
        some n ∧ n.circuit.isSome = true) :
    placeCircuit s pos preview = s := by
  have hocc : ((List.range preview.sizeY).any fun j =>
      (List.range preview.sizeX).any fun i =>
        match CGrid.get? s.circuitNodes ⟨pos.x + (i : Int), pos.y + (j : Int)⟩ with
        | some n => n.circuit.isSome
        | none => false) = true := by
    obtain ⟨j, hj, i, hi, n, hn, hc⟩ := h
    simp only [List.any_eq_true, List.mem_range]
    refine ⟨j, hj, i, hi, ?_⟩
    rw [hn]
    exact hc
  unfold placeCircuit
  rw [if_pos hocc]

/-- C6 witness: placing a 1×1 circuit onto `occBoard`, whose origin tile
already holds circuit 0, is rejected without any state change. -/
theorem c6_place_circuit_atomic_witness :
    placeCircuit occBoard ⟨0, 0⟩ ⟨1, 1, [], none⟩ = occBoard :=
  c6_place_circuit_atomic occBoard ⟨0, 0⟩ ⟨1, 1, [], none⟩
    ⟨0, by decide, 0, by decide, ⟨some 0, (0, 0)⟩, by decide, by decide⟩

end RLS

namespace RLS

theorem segPos_inj (part : WirePart) {i j : Nat}
    (h : segPos part i = segPos part j) : i = j := by
  unfold segPos Pos.step at h
  cases hv : part.vertical <;> rw [hv] at h <;>
    simp only [if_true, if_false, Bool.false_eq_true, Bool.true_eq_false,
      Pos.mk.injEq] at h <;> omega

theorem wireAddPoint_wireNodes (s : BoardState) (w : Nat) (pos : Pos)
    (us lf uf : Bool) (pin : Option PinId) :
    (wireAddPoint s w pos us lf uf pin).wireNodes = s.wireNodes := by
  unfold wireAddPoint
  cases FixedVec.get s.wires w
  · rfl
  · cases us <;> rfl

theorem wireAddPoint_wires_none (s : BoardState) (w : Nat) (pos : Pos)
    (us lf uf : Bool) (pin : Option PinId) (j : Nat)
    (h : FixedVec.get s.wires j = none) :
    FixedVec.get (wireAddPoint s w pos us lf uf pin).wires j = none := by
  unfold wireAddPoint
  cases hg : FixedVec.get s.wires w with
  | none => exact h
  | some wr =>
    have hne : j ≠ w := by
      intro e
      rw [e, hg] at h
      cases h
    cases us <;> simpa [FixedVec.get_set_at, hne] using h

theorem wireRemovePoint_wires_none (s : BoardState) (w : Nat) (pos : Pos)
    (us : Bool) (j : Nat) (h : FixedVec.get s.wires j = none) :
    FixedVec.get (wireRemovePoint s w pos us).wires j = none := by
  unfold wireRemovePoint
  cases hg : FixedVec.get s.wires w with
  | none => exact h
  | some wr =>
    have hne : j ≠ w := by
      intro e
      rw [e, hg] at h
      cases h
    cases us <;> simpa [FixedVec.get_set_at, hne] using h

theorem setWirePoint_wires_none (s : BoardState) (pos : Pos)
    (w : Option Nat) (us : Bool) (j : Nat)
    (h : FixedVec.get s.wires j = none) :
    FixedVec.get ((setWirePoint s pos w us).1).wires j = none := by
  unfold setWirePoint
  dsimp only
  cases hpw : (s.wireNodes.get pos).wire <;> cases w <;> dsimp only
  · split
    · exact h
    · exact h
  · split
    · exact h
    · exact wireAddPoint_wires_none _ _ _ _ _ _ _ _ h
  · split
    · exact h
    · exact wireRemovePoint_wires_none _ _ _ _ _ h
  · split
    · exact h
    · exact wireAddPoint_wires_none _ _ _ _ _ _ _ _
        (wireRemovePoint_wires_none _ _ _ _ _ h)

theorem placeLoopGo_wires_none (part : WirePart) (newWire : Nat)
    (pins : List (Pos × PinId)) :
    ∀ (rem : Nat) (st : BoardState) (i dist j : Nat),
    FixedVec.get st.wires j = none →
    FixedVec.get (placeLoopGo part newWire pins st i dist rem).wires j =
      none := by
  intro rem
  induction rem with
  | zero =>
    intro st i dist j h
    exact h
  | succ rem ih =>
    intro st i dist j h
    unfold placeLoopGo
    apply ih
    dsimp only
    split
    · exact wireAddPoint_wires_none _ _ _ _ _ _ _ _ h
    · exact h

end RLS

namespace RLS

theorem setNodeWires_wires (s : BoardState) (l : List Pos) (w : Nat) :
    (setNodeWires s l w).wires = s.wires := rfl

theorem mergeWires_wires (st : BoardState) (main w : Nat) (ww : Wire)
    (hw : FixedVec.get st.wires w = some ww)
    (hm : (FixedVec.get st.wires main).isSome = true)
    (hne : main ≠ w) :
    (mergeWires st main w false).wires = FixedVec.removeAt st.wires w := by
  unfold mergeWires
  rw [hw]
  dsimp only
  rw [if_neg (by
    push_neg
    refine ⟨?_, hne⟩
    simpa [FixedVec.existsAt] using hm)]
  unfold boardMergeWires
  rw [if_neg (not_not_intro (by
    simpa [setNodeWires_wires, FixedVec.existsAt] using hm))]
  rw [show FixedVec.get (setNodeWires st ww.points.keys main).wires w =
    some ww from hw]
  rfl

end RLS

namespace RLS

theorem mergeFold_spec (main : Nat) :
    ∀ (l : List Nat) (st : BoardState),
    (FixedVec.get st.wires main).isSome = true →
    (∀ w, w ∈ l → w ≠ main → (FixedVec.get st.wires w).isSome = true) →
    l.Nodup →
    (∀ j, FixedVec.get st.wires j = none →
      FixedVec.get (l.foldl (fun st w =>
        if w ≠ main then mergeWires st main w false else st) st).wires j =
        none) ∧
    (∀ w, w ∈ l → w ≠ main →
      FixedVec.get (l.foldl (fun st w =>
        if w ≠ main then mergeWires st main w false else st) st).wires w =
        none) := by
  intro l
  induction l with
  | nil =>
    intro st hm hl hnd
    exact ⟨fun j h => h, fun w hw => absurd hw (by simp)⟩
  | cons w l ih =>
    intro st hm hl hnd
    by_cases hwm : w = main
    · have hstep : (if w ≠ main then mergeWires st main w false else st) = st := by
        rw [if_neg (by simpa using hwm)]
      rw [List.foldl_cons, hstep]
      obtain ⟨ih1, ih2⟩ := ih st hm
        (fun w' hw' hne => hl w' (List.mem_cons_of_mem _ hw') hne)
        (List.Nodup.of_cons hnd)
      refine ⟨ih1, ?_⟩
      intro w' hw' hne
      rcases List.mem_cons.mp hw' with he | hm'
      · exact absurd (he.trans hwm) hne
      · exact ih2 w' hm' hne
    · have hsome := hl w (List.mem_cons_self _ _) hwm
      obtain ⟨ww, hww⟩ := Option.isSome_iff_exists.mp hsome
      have hwires : (mergeWires st main w false).wires =
          FixedVec.removeAt st.wires w :=
        mergeWires_wires st main w ww hww hm (fun e => hwm e.symm)
      have hget : ∀ j, FixedVec.get (mergeWires st main w false).wires j =
          if j = w then none else FixedVec.get st.wires j := by
        intro j
        rw [hwires, FixedVec.get_removeAt]
      have hstep : (if w ≠ main then mergeWires st main w false else st) =
          mergeWires st main w false := by
        rw [if_pos hwm]
      rw [List.foldl_cons, hstep]
      have hnotmem : w ∉ l := (List.nodup_cons.mp hnd).1
      obtain ⟨ih1, ih2⟩ := ih (mergeWires st main w false)
        (by rw [hget]; rw [if_neg (fun e => hwm e.symm)]; exact hm)
        (by
          intro w' hw' hne
          rw [hget]
          rw [if_neg (fun e => hnotmem (by rw [← e]; exact hw'))]
          exact hl w' (List.mem_cons_of_mem _ hw') hne)
        (List.Nodup.of_cons hnd)
      refine ⟨?_, ?_⟩
      · intro j hj
        apply ih1
        rw [hget]
        by_cases hjw : j = w
        · rw [if_pos hjw]
        · rw [if_neg hjw]; exact hj
      · intro w' hw' hne
        rcases List.mem_cons.mp hw' with he | hm'
        · subst he
          apply ih1
          rw [hget, if_pos rfl]
        · exact ih2 w' hm' hne

theorem insertDedup_nodup (l : List Nat) (w : Nat) (h : l.Nodup) :
    (insertDedup l w).Nodup := by
  unfold insertDedup
  split
  · exact h
  · next hmem =>
    rw [List.nodup_append]
    exact ⟨h, List.nodup_singleton _, by simpa [List.disjoint_singleton] using hmem⟩

theorem foldl_nodup {α : Type} (f : List Nat → α → List Nat)
    (hf : ∀ acc a, acc.Nodup → (f acc a).Nodup) :
    ∀ (l : List α) (acc : List Nat), acc.Nodup → (l.foldl f acc).Nodup := by
  intro l
  induction l with
  | nil => intro acc h; exact h
  | cons a l ih =>
    intro acc h
    rw [List.foldl_cons]
    exact ih _ (hf acc a h)

theorem wiresCrossedOf_nodup (s : BoardState) (part : WirePart) :
    (wiresCrossedOf s part).Nodup := by
  unfold wiresCrossedOf
  apply foldl_nodup
  · intro acc i h
    dsimp only
    split
    · cases wiresAt s (segPos part i) with
      | twNone => exact h
      | one w _ => exact insertDedup_nodup _ _ h
      | two l u => exact insertDedup_nodup _ _ (insertDedup_nodup _ _ h)
    · cases (s.wireNodes.get (segPos part i)).wire with
      | none => exact h
      | some w => exact insertDedup_nodup _ _ h
  · exact List.nodup_nil

end RLS

namespace RLS

theorem get_mem_entries {α : Type} (v : FixedVec α) (i : Nat) (a : α)
    (h : FixedVec.get v i = some a) : a ∈ FixedVec.entries v := by
  have hv : some a ∈ v := by
    unfold FixedVec.get at h
    rw [List.getD_eq_getElem?_getD] at h
    cases hg : v[i]? with
    | none => rw [hg] at h; cases h
    | some o =>
      rw [hg] at h
      simp only [Option.getD_some] at h
      subst h
      exact List.getElem?_mem hg
  unfold FixedVec.entries
  exact List.mem_filterMap.mpr ⟨some a, hv, rfl⟩

theorem mem_entries_get {α : Type} (v : FixedVec α) (a : α)
    (h : a ∈ FixedVec.entries v) : ∃ i, FixedVec.get v i = some a := by
  unfold FixedVec.entries at h
  obtain ⟨o, ho, hid⟩ := List.mem_filterMap.mp h
  cases o with
  | none => cases hid
  | some b =>
    cases hid
    obtain ⟨n, hn⟩ := List.mem_iff_get?.mp ho
    refine ⟨n, ?_⟩
    unfold FixedVec.get
    rw [List.getD_eq_getElem?_getD, ← List.get?_eq_getElem?, hn]
    rfl

theorem foldlMaxAux (l : List Wire) : ∀ (b0 : Wire),
    ∃ b, l.foldl (fun acc w =>
        match acc with
        | none => some w
        | some c => if w.points.length ≥ c.points.length then some w else some c)
      (some b0) = some b ∧ (b ∈ l ∨ b = b0) ∧
      b0.points.length ≤ b.points.length ∧
      ∀ x ∈ l, x.points.length ≤ b.points.length := by
  induction l with
  | nil =>
    intro b0
    exact ⟨b0, rfl, Or.inr rfl, le_refl _, by simp⟩
  | cons w l ih =>
    intro b0
    by_cases hge : w.points.length ≥ b0.points.length
    · obtain ⟨b, hfold, hmem, hle, hall⟩ := ih w
      refine ⟨b, ?_, ?_, ?_, ?_⟩
      · rw [List.foldl_cons]
        simpa [hge] using hfold
      · rcases hmem with hm | hm
        · exact Or.inl (List.mem_cons_of_mem _ hm)
        · exact Or.inl (hm ▸ List.mem_cons_self _ _)
      · exact le_trans hge hle
      · intro x hx
        rcases List.mem_cons.mp hx with hx | hx
        · subst hx; exact hle
        · exact hall x hx
    · obtain ⟨b, hfold, hmem, hle, hall⟩ := ih b0
      refine ⟨b, ?_, ?_, hle, ?_⟩
      · rw [List.foldl_cons]
        simpa [hge] using hfold
      · rcases hmem with hm | hm
        · exact Or.inl (List.mem_cons_of_mem _ hm)
        · exact Or.inr hm
      · intro x hx
        rcases List.mem_cons.mp hx with hx | hx
        · subst hx
          exact le_trans (le_of_not_ge hge) hle
        · exact hall x hx

theorem mainWireOf_spec (s : BoardState) (wc : List Nat) (w0 : Wire)
    (h0 : w0 ∈ (FixedVec.entries s.wires).filter (fun w => w.id ∈ wc)) :
    ∃ b : Wire, mainWireOf s wc = some b.id ∧
      b ∈ (FixedVec.entries s.wires).filter (fun w => w.id ∈ wc) ∧
      ∀ x ∈ (FixedVec.entries s.wires).filter (fun w => w.id ∈ wc),
        x.points.length ≤ b.points.length := by
  unfold mainWireOf
  cases hl : (FixedVec.entries s.wires).filter (fun w => w.id ∈ wc) with
  | nil =>
    rw [hl] at h0
    cases h0
  | cons a t =>
    obtain ⟨b, hfold, hmem, hle, hall⟩ := foldlMaxAux t a
    refine ⟨b, ?_, ?_, ?_⟩
    · simp only [List.foldl_cons]
      rw [hfold]
      rfl
    · rcases hmem with hm | hm
      · exact List.mem_cons_of_mem _ hm
      · exact hm ▸ List.mem_cons_self _ _
    · intro x hx
      rcases List.mem_cons.mp hx with hx | hx
      · subst hx; exact hle
      · exact hall x hx

end RLS

namespace RLS

theorem placeLoopGo_get_untouched (part : WirePart) (newWire : Nat)
    (pins : List (Pos × PinId)) :
    ∀ (rem i dist : Nat) (st : BoardState) (q : Pos),
    (∀ k, i ≤ k → k < i + rem → q ≠ segPos part k) →
    (placeLoopGo part newWire pins st i dist rem).wireNodes.get q =
      st.wireNodes.get q := by
  intro rem
  induction rem with
  | zero =>
    intro i dist st q _
    rfl
  | succ rem ih =>
    intro i dist st q hq
    unfold placeLoopGo
    dsimp only
    rw [ih (i + 1) _ _ _ (fun k hk1 hk2 => hq k (by omega) (by omega))]
    have hqi : q ≠ segPos part i := hq i (le_refl _) (by omega)
    split
    · rw [wireAddPoint_wireNodes]
      dsimp only
      rw [Grid.get_set, if_neg hqi]
    · dsimp only
      rw [Grid.get_set, if_neg hqi]

theorem placeLoopGo_get_processed (part : WirePart) (newWire : Nat)
    (pins : List (Pos × PinId)) :
    ∀ (rem i dist : Nat) (st : BoardState) (j : Nat),
    i ≤ j → j < i + rem →
    ((((placeLoopGo part newWire pins st i dist rem).wireNodes.get
        (segPos part j)).wire = some newWire ∨
      ((placeLoopGo part newWire pins st i dist rem).wireNodes.get
        (segPos part j)).wire = none) ∧
     ((j = 0 ∨ j = part.length) →
      ((placeLoopGo part newWire pins st i dist rem).wireNodes.get
        (segPos part j)).wire = some newWire)) := by
  intro rem
  induction rem with
  | zero =>
    intro i dist st j hj1 hj2
    omega
  | succ rem ih =>
    intro i dist st j hj1 hj2
    by_cases hji : j = i
    · subst hji
      unfold placeLoopGo
      dsimp only
      rw [placeLoopGo_get_untouched part newWire pins rem (j + 1) _ _
        (segPos part j)
        (fun k hk1 _ => fun he => by
          have := segPos_inj part he
          omega)]
      have hgrid : ∀ (st2 : BoardState) (b : Bool) (n2 : WireNode)
          (lf uf : Bool) (pin : Option PinId),
          ((if b = true then
              wireAddPoint { st2 with
                wireNodes := st2.wireNodes.set (segPos part j) n2 }
                newWire (segPos part j) false lf uf pin
            else { st2 with
              wireNodes := st2.wireNodes.set (segPos part j) n2 }) :
            BoardState).wireNodes =
            st2.wireNodes.set (segPos part j) n2 := by
        intro st2 b n2 lf uf pin
        split
        · rw [wireAddPoint_wireNodes]
        · rfl
      split
      · rw [wireAddPoint_wireNodes]
        dsimp only
        rw [Grid.get_set, if_pos rfl]
        constructor
        · exact Or.inl rfl
        · intro _
          rfl
      · dsimp only
        rw [Grid.get_set, if_pos rfl]
        next hnp =>
        have hnotpoint : ¬ (j = 0 ∨ j = part.length ∨
            ((lookupPin pins (segPos part j)).isSome ||
              (st.wireNodes.get (segPos part j)).wire.isSome) = true) := hnp
        push_neg at hnotpoint
        obtain ⟨h0, hlen, hpt⟩ := hnotpoint
        constructor
        · right
          have hcw : (st.wireNodes.get (segPos part j)).wire.isSome = false := by
            rcases Bool.or_eq_false_iff.mp
              (Bool.not_eq_true _ |>.mp hpt) with ⟨_, h2⟩
            exact h2
          have hwn : (st.wireNodes.get (segPos part j)).wire = none :=
            Option.not_isSome_iff_eq_none.mp (by simp [hcw])
          split
          · unfold WireNode.setPointer
            split
            · exact hwn
            · exact hwn
          · exact hwn
        · intro hj
          rcases hj with hj | hj
          · exact absurd hj h0
          · exact absurd hj hlen
    · exact ih (i + 1) _ _ j (by omega) (by omega)

end RLS

namespace RLS

/-- C2: target-wire resolution of `place_wire_part`: writing `wc` for the
distinct wires crossed by the optimized segment and `tw` for the target
wire chosen, an empty `wc` allocates the first free wire slot (whose slot
was unoccupied); a singleton `wc` reuses that wire; with two or more
crossed wires the target is one of them, has at least as many existing
points as every crossed wire, and every other crossed wire's slot is freed
by the merges; and every tile of the placed segment ends up holding the
target wire id or no wire, with both endpoints holding it. -/
theorem c2_target_wire_resolution (s : BoardState) (part0 part : WirePart)
    (wc : List Nat) (tw : Nat)
    (hopt : optimizeWirePart s part0 = some part)
    (hwc : wc = wiresCrossedOf s part)
    (htw : tw = (resolveTargetWire s wc).2)
    (hids : ∀ i wr, FixedVec.get s.wires i = some wr → wr.id = i) :
    (wc = [] → tw = FixedVec.firstFreePos s.wires ∧
      FixedVec.get s.wires tw = none) ∧
    (∀ w, wc = [w] → tw = w) ∧
    (2 ≤ wc.length →
      (∀ w ∈ wc, (FixedVec.get s.wires w).isSome = true) →
      tw ∈ wc ∧
      (∀ w ∈ wc, ptsLen s w ≤ ptsLen s tw) ∧
      (∀ w ∈ wc, w ≠ tw →
        FixedVec.get (placeWirePart s part0).wires w = none)) ∧
    (∀ j, j ≤ part.length →
      (((placeWirePart s part0).wireNodes.get (segPos part j)).wire =
          some tw ∨
        ((placeWirePart s part0).wireNodes.get (segPos part j)).wire =
          none) ∧
      ((j = 0 ∨ j = part.length) →
        ((placeWirePart s part0).wireNodes.get (segPos part j)).wire =
          some tw)) := by
  subst hwc
  subst htw
  refine ⟨?_, ?_, ?_, ?_⟩
  · intro h
    rw [h]
    exact ⟨rfl, FixedVec.get_firstFreePos s.wires⟩
  · intro w h
    rw [h]
    rfl
  · intro hlen hsome
    cases hwcl : wiresCrossedOf s part with
    | nil =>
      rw [hwcl] at hlen
      simp at hlen
    | cons a t =>
      cases t with
      | nil =>
        rw [hwcl] at hlen
        simp at hlen
      | cons b t2 =>
        rw [hwcl] at hsome
        have hnd := wiresCrossedOf_nodup s part
        rw [hwcl] at hnd
        obtain ⟨wa, hwa⟩ := Option.isSome_iff_exists.mp
          (hsome a (List.mem_cons_self a _))
        have hwaid : wa.id = a := hids a wa hwa
        have hwafilt : wa ∈ (FixedVec.entries s.wires).filter
            (fun w => w.id ∈ a :: b :: t2) := by
          refine List.mem_filter.mpr ⟨get_mem_entries _ _ _ hwa, ?_⟩
          exact decide_eq_true (by rw [hwaid]; exact List.mem_cons_self a _)
        obtain ⟨bw, hmain, hbfilt, hmax⟩ :=
          mainWireOf_spec s (a :: b :: t2) wa hwafilt
        have hbmem : bw.id ∈ a :: b :: t2 :=
          of_decide_eq_true (List.mem_filter.mp hbfilt).2
        obtain ⟨bi, hbi⟩ := mem_entries_get _ _ (List.mem_filter.mp hbfilt).1
        have hbid : bw.id = bi := hids bi bw hbi
        have hbget : FixedVec.get s.wires bw.id = some bw := by
          rw [hbid]; exact hbi
        have hres : resolveTargetWire s (a :: b :: t2) =
            ((a :: b :: t2).foldl (fun st w =>
              if w ≠ bw.id then mergeWires st bw.id w false else st) s,
              bw.id) := by
          unfold resolveTargetWire
          dsimp only
          rw [hmain]
        refine ⟨?_, ?_, ?_⟩
        · rw [hres]
          exact hbmem
        · intro w hwmem
          obtain ⟨wr, hwr⟩ := Option.isSome_iff_exists.mp (hsome w hwmem)
          have hwrid : wr.id = w := hids w wr hwr
          have hwrfilt : wr ∈ (FixedVec.entries s.wires).filter
              (fun x => x.id ∈ a :: b :: t2) :=
            List.mem_filter.mpr ⟨get_mem_entries _ _ _ hwr,
              decide_eq_true (by rw [hwrid]; exact hwmem)⟩
          rw [hres]
          show ptsLen s w ≤ ptsLen s bw.id
          unfold ptsLen
          rw [hwr, hbget]
          exact hmax wr hwrfilt
        · intro w hwmem hwne
          rw [hres] at hwne
          dsimp only at hwne
          unfold placeWirePart
          rw [hopt]
          dsimp only
          rw [hwcl, hres]
          dsimp only
          apply placeLoopGo_wires_none
          apply setWirePoint_wires_none
          apply setWirePoint_wires_none
          exact (mergeFold_spec bw.id (a :: b :: t2) s
            (by rw [hbget]; rfl)
            (fun w hw _ => hsome w hw) hnd).2 w hwmem hwne
  · intro j hj
    unfold placeWirePart
    rw [hopt]
    dsimp only
    exact placeLoopGo_get_processed part _ _ (part.length + 1) 0 0 _ j
      (Nat.zero_le _) (by omega)

/-- C2 witness: placing a fresh 5-long horizontal segment on the empty
board crosses no wire, so the target wire is the first free slot. -/
theorem c2_target_wire_resolution_witness :
    (resolveTargetWire BoardState.empty
      (wiresCrossedOf BoardState.empty ⟨⟨0, 0⟩, 5, false⟩)).2 =
      FixedVec.firstFreePos BoardState.empty.wires :=
  ((c2_target_wire_resolution BoardState.empty ⟨⟨0, 0⟩, 5, false⟩
    ⟨⟨0, 0⟩, 5, false⟩
    (wiresCrossedOf BoardState.empty ⟨⟨0, 0⟩, 5, false⟩) _
    (by decide) rfl rfl
    (fun i wr h => by simp [FixedVec.get, BoardState.empty] at h)).1
    (by decide)).1

end RLS

namespace RLS

theorem PMap.get?_cons (e : Pos × WirePoint) (m : PMap) (p : Pos) :
    PMap.get? (e :: m) p = if e.1 = p then some e.2 else PMap.get? m p := by
  unfold PMap.get?
  by_cases he : e.1 = p
  · rw [List.find?_cons_of_pos _ (by simpa using he), if_pos he]
    rfl
  · rw [List.find?_cons_of_neg _ (by simpa using he), if_neg he]

theorem PMap.mem_keys_iff (m : PMap) (p : Pos) :
    p ∈ PMap.keys m ↔ (PMap.get? m p).isSome = true := by
  induction m with
  | nil => simp [PMap.keys, PMap.get?]
  | cons e m ih =>
    rw [PMap.get?_cons]
    by_cases he : e.1 = p
    · simp [PMap.keys, he]
    · rw [if_neg he]
      simp only [PMap.keys, List.map_cons, List.mem_cons]
      rw [← ih]
      constructor
      · intro h
        rcases h with h | h
        · exact absurd h.symm he
        · exact h
      · exact Or.inr

theorem PMap.get?_insert (m : PMap) (p : Pos) (pt : WirePoint) (q : Pos) :
    PMap.get? (PMap.insert m p pt) q =
      if q = p then some pt else PMap.get? m q := by
  unfold PMap.insert
  rw [PMap.get?_cons]
  by_cases h : q = p
  · rw [if_pos h.symm, if_pos h]
  · rw [if_neg (fun e => h e.symm), if_neg h]
    unfold PMap.get?
    rw [List.find?_eraseP_of_ne]
    intro a ha
    simp only [decide_eq_true_eq] at ha
    simp only [decide_eq_false_iff_not]
    exact fun hq => h (ha.symm.trans hq).symm

theorem PMap.get?_erase_ne (m : PMap) (p q : Pos) (h : q ≠ p) :
    PMap.get? (PMap.erase m p) q = PMap.get? m q := by
  unfold PMap.erase PMap.get?
  rw [List.find?_eraseP_of_ne]
  intro a ha
  simp only [decide_eq_true_eq] at ha
  simp only [decide_eq_false_iff_not]
  exact fun hq => h (ha.symm.trans hq).symm

theorem PMap.keys_erase (m : PMap) (p : Pos) :
    PMap.keys (PMap.erase m p) = (PMap.keys m).erase p := by
  induction m with
  | nil => rfl
  | cons e m ih =>
    by_cases he : e.1 = p
    · show PMap.keys (List.eraseP _ (e :: m)) = _
      rw [List.eraseP_cons_of_pos (by simpa using he)]
      show PMap.keys m = (e.1 :: PMap.keys m).erase p
      rw [he, List.erase_cons_head]
    · show PMap.keys (List.eraseP _ (e :: m)) = _
      rw [List.eraseP_cons_of_neg (by simpa using he)]
      show e.1 :: PMap.keys (PMap.erase m p) = (e.1 :: PMap.keys m).erase p
      rw [List.erase_cons_tail (by simpa using he), ih]

theorem PMap.keys_insert (m : PMap) (p : Pos) (pt : WirePoint) :
    PMap.keys (PMap.insert m p pt) = p :: (PMap.keys m).erase p := by
  show p :: PMap.keys (PMap.erase m p) = _
  rw [PMap.keys_erase]

theorem PMap.keys_insert_perm (m : PMap) (p : Pos) (pt : WirePoint)
    (h : p ∈ PMap.keys m) :
    (PMap.keys (PMap.insert m p pt)).Perm (PMap.keys m) := by
  rw [PMap.keys_insert]
  exact (List.perm_cons_erase h).symm

theorem PMap.keys_insert_nodup (m : PMap) (p : Pos) (pt : WirePoint)
    (h : (PMap.keys m).Nodup) :
    (PMap.keys (PMap.insert m p pt)).Nodup := by
  rw [PMap.keys_insert]
  exact List.Nodup.cons (h.not_mem_erase) (h.erase p)

theorem setPinWire_lookup (h : List (PinId × Option Nat)) (pid : PinId)
    (w : Option Nat) (q : PinId) :
    ((setPinWire h pid w).find? (fun e => e.1 = q)).map (·.2) =
      if q = pid then some w
      else (h.find? (fun e => e.1 = q)).map (·.2) := by
  unfold setPinWire
  by_cases hq : q = pid
  · subst hq
    rw [List.find?_cons_of_pos _ (by simp), if_pos rfl]
    rfl
  · rw [List.find?_cons_of_neg _ (by
        simp only [decide_eq_true_eq]
        exact fun e => hq e.symm), if_neg hq,
      List.find?_eraseP_of_ne]
    intro a ha
    simp only [decide_eq_true_eq] at ha
    simp only [decide_eq_false_iff_not]
    exact fun he => hq (ha.symm.trans he).symm

theorem adjustNeighbor_keys_perm (m : PMap) (ref : Option Pos)
    (f : WirePoint → WirePoint) :
    (PMap.keys (adjustNeighbor m ref f)).Perm (PMap.keys m) := by
  unfold adjustNeighbor
  cases ref with
  | none => exact List.Perm.refl _
  | some rr =>
    dsimp only
    cases hg : PMap.get? m rr with
    | none => exact List.Perm.refl _
    | some p =>
      exact PMap.keys_insert_perm m rr (f p)
        ((PMap.mem_keys_iff m rr).mpr (by simp [hg]))

theorem adjustNeighbor_nodup (m : PMap) (ref : Option Pos)
    (f : WirePoint → WirePoint) (h : (PMap.keys m).Nodup) :
    (PMap.keys (adjustNeighbor m ref f)).Nodup :=
  ((adjustNeighbor_keys_perm m ref f).nodup_iff).mpr h

theorem adjustNeighbor_pin (m : PMap) (ref : Option Pos)
    (f : WirePoint → WirePoint) (hf : ∀ pt, (f pt).pin = pt.pin) (q : Pos) :
    (PMap.get? (adjustNeighbor m ref f) q).map (·.pin) =
      (PMap.get? m q).map (·.pin) := by
  unfold adjustNeighbor
  cases ref with
  | none => rfl
  | some rr =>
    dsimp only
    cases hg : PMap.get? m rr with
    | none => rfl
    | some p =>
      rw [PMap.get?_insert]
      by_cases hq : q = rr
      · rw [if_pos hq, hq, hg]
        simp [hf]
      · rw [if_neg hq]

end RLS

namespace RLS

theorem splitStep_spec (ptsAll : List Pos) (nw : Nat)
    (acc : PMap × PMap × List (PinId × Option Nat)) (pos : Pos)
    (point : WirePoint) (hpt : PMap.get? acc.1 pos = some point)
    (hnd : (PMap.keys acc.1).Nodup) :
    (PMap.keys (splitStep ptsAll nw acc pos).1).Perm
      ((PMap.keys acc.1).erase pos) ∧
    (PMap.keys (splitStep ptsAll nw acc pos).1).Nodup ∧
    (∀ q, q ≠ pos →
      (PMap.get? (splitStep ptsAll nw acc pos).1 q).map (·.pin) =
        (PMap.get? acc.1 q).map (·.pin)) ∧
    (PMap.keys (splitStep ptsAll nw acc pos).2.1 =
      pos :: (PMap.keys acc.2.1).erase pos) ∧
    (∀ pid,
      ((acc.2.2.find? (fun e => e.1 = pid)).map (·.2) = some (some nw) →
       ((splitStep ptsAll nw acc pos).2.2.find?
          (fun e => e.1 = pid)).map (·.2) = some (some nw)) ∧
      (point.pin = some pid →
       ((splitStep ptsAll nw acc pos).2.2.find?
          (fun e => e.1 = pid)).map (·.2) = some (some nw))) := by
  unfold splitStep
  rw [hpt]
  dsimp only
  have hker : PMap.keys (PMap.erase acc.1 pos) = (PMap.keys acc.1).erase pos :=
    PMap.keys_erase _ _
  refine ⟨?_, ?_, ?_, PMap.keys_insert _ _ _, ?_⟩
  · exact hker ▸ ((adjustNeighbor_keys_perm _ _ _).trans
      (adjustNeighbor_keys_perm _ _ _))
  · refine (adjustNeighbor_nodup _ _ _ (adjustNeighbor_nodup _ _ _ ?_))
    rw [hker]
    exact hnd.erase pos
  · intro q hq
    rw [adjustNeighbor_pin _ _ (fun p => { p with up := false })
        (fun pt => rfl) q,
      adjustNeighbor_pin _ _ (fun p => { p with left := false })
        (fun pt => rfl) q,
      PMap.get?_erase_ne _ _ _ hq]
  · intro pid
    cases hpin : point.pin with
    | none =>
      dsimp only
      exact ⟨fun h => h, fun h => nomatch h⟩
    | some pid2 =>
      dsimp only
      constructor
      · intro h
        rw [setPinWire_lookup]
        by_cases hq : pid = pid2
        · rw [if_pos hq]
        · rw [if_neg hq]
          exact h
      · intro h
        rw [setPinWire_lookup]
        injection h with h2
        rw [if_pos h2.symm]

end RLS

namespace RLS

theorem splitFold_spec (ptsAll : List Pos) (nw : Nat) :
    ∀ (todo : List Pos) (m newm : PMap) (heap : List (PinId × Option Nat)),
    todo.Nodup →
    (∀ q ∈ todo, q ∈ PMap.keys m) →
    (PMap.keys m).Nodup →
    (∀ q ∈ todo, q ∉ PMap.keys newm) →
    ((PMap.keys (todo.foldl (splitStep ptsAll nw) (m, newm, heap)).1 :
        Multiset Pos) + (todo : Multiset Pos) =
      (PMap.keys m : Multiset Pos)) ∧
    (PMap.keys (todo.foldl (splitStep ptsAll nw) (m, newm, heap)).1).Nodup ∧
    ((PMap.keys (todo.foldl (splitStep ptsAll nw) (m, newm, heap)).2.1 :
        Multiset Pos) =
      (PMap.keys newm : Multiset Pos) + (todo : Multiset Pos)) ∧
    (∀ pid, (heap.find? (fun e => e.1 = pid)).map (·.2) = some (some nw) →
      (((todo.foldl (splitStep ptsAll nw) (m, newm, heap)).2.2.find?
        (fun e => e.1 = pid)).map (·.2) = some (some nw))) ∧
    (∀ q ∈ todo, ∀ pt, PMap.get? m q = some pt →
      ∀ pid, pt.pin = some pid →
      (((todo.foldl (splitStep ptsAll nw) (m, newm, heap)).2.2.find?
        (fun e => e.1 = pid)).map (·.2) = some (some nw))) := by
  intro todo
  induction todo with
  | nil =>
    intro m newm heap _ _ hndm _
    exact ⟨by simp, hndm, by simp, fun pid h => h,
      fun q hq => absurd hq (List.not_mem_nil q)⟩
  | cons pos rest ih =>
    intro m newm heap hnd hsub hndm hdisj
    have hposrest : pos ∉ rest := (List.nodup_cons.mp hnd).1
    have hndrest : rest.Nodup := (List.nodup_cons.mp hnd).2
    have hmem : pos ∈ PMap.keys m := hsub pos (List.mem_cons_self _ _)
    obtain ⟨point, hptv⟩ := Option.isSome_iff_exists.mp
      ((PMap.mem_keys_iff m pos).mp hmem)
    obtain ⟨sperm, snodup, spin, skeys, sheap⟩ :=
      splitStep_spec ptsAll nw (m, newm, heap) pos point hptv hndm
    simp only [List.foldl_cons]
    have e : splitStep ptsAll nw (m, newm, heap) pos =
        ((splitStep ptsAll nw (m, newm, heap) pos).1,
         (splitStep ptsAll nw (m, newm, heap) pos).2.1,
         (splitStep ptsAll nw (m, newm, heap) pos).2.2) := rfl
    rw [e]
    have hsub' : ∀ q ∈ rest,
        q ∈ PMap.keys (splitStep ptsAll nw (m, newm, heap) pos).1 := by
      intro q hq
      have hqpos : q ≠ pos := fun h => hposrest (h ▸ hq)
      exact (sperm.mem_iff).mpr
        ((List.mem_erase_of_ne hqpos).mpr (hsub q (List.mem_cons_of_mem _ hq)))
    have hdisj' : ∀ q ∈ rest,
        q ∉ PMap.keys (splitStep ptsAll nw (m, newm, heap) pos).2.1 := by
      intro q hq hmem'
      rw [skeys] at hmem'
      rcases List.mem_cons.mp hmem' with h | h
      · exact hposrest (h ▸ hq)
      · exact hdisj q (List.mem_cons_of_mem _ hq) (List.mem_of_mem_erase h)
    obtain ⟨ih1, ih2, ih3, ih4, ih5⟩ :=
      ih (splitStep ptsAll nw (m, newm, heap) pos).1
        (splitStep ptsAll nw (m, newm, heap) pos).2.1
        (splitStep ptsAll nw (m, newm, heap) pos).2.2
        hndrest hsub' snodup hdisj'
    have hcoe1 : (PMap.keys (splitStep ptsAll nw (m, newm, heap) pos).1 :
        Multiset Pos) = (((PMap.keys m).erase pos : List Pos) : Multiset Pos) :=
      Multiset.coe_eq_coe.mpr sperm
    have hcoem : (PMap.keys m : Multiset Pos) =
        pos ::ₘ (((PMap.keys m).erase pos : List Pos) : Multiset Pos) := by
      rw [Multiset.cons_coe]
      exact Multiset.coe_eq_coe.mpr (List.perm_cons_erase hmem)
    refine ⟨?_, ih2, ?_, ?_, ?_⟩
    · calc (PMap.keys (List.foldl (splitStep ptsAll nw)
            ((splitStep ptsAll nw (m, newm, heap) pos).1,
             (splitStep ptsAll nw (m, newm, heap) pos).2.1,
             (splitStep ptsAll nw (m, newm, heap) pos).2.2) rest).1 :
            Multiset Pos) + ((pos :: rest : List Pos) : Multiset Pos)
          = pos ::ₘ ((PMap.keys (List.foldl (splitStep ptsAll nw)
              ((splitStep ptsAll nw (m, newm, heap) pos).1,
               (splitStep ptsAll nw (m, newm, heap) pos).2.1,
               (splitStep ptsAll nw (m, newm, heap) pos).2.2) rest).1 :
              Multiset Pos) + (rest : Multiset Pos)) := by
            rw [← Multiset.cons_coe, Multiset.add_cons]
      _ = pos ::ₘ (((PMap.keys m).erase pos : List Pos) : Multiset Pos) := by
            rw [ih1, hcoe1]
      _ = (PMap.keys m : Multiset Pos) := hcoem.symm
    · rw [ih3, skeys]
      have herased : (PMap.keys newm).erase pos = PMap.keys newm :=
        List.erase_of_not_mem (hdisj pos (List.mem_cons_self _ _))
      rw [herased, ← Multiset.cons_coe, ← Multiset.cons_coe,
        Multiset.cons_add, Multiset.add_cons]
    · intro pid h
      exact ih4 pid ((sheap pid).1 h)
    · intro q hq pt hpt pid hpin
      rcases List.mem_cons.mp hq with hqp | hqr
      · subst hqp
        rw [hptv] at hpt
        injection hpt with hpt
        subst hpt
        exact ih4 pid ((sheap pid).2 hpin)
      · have hqpos : q ≠ pos := fun h => hposrest (h ▸ hqr)
        have hpin' := spin q hqpos
        rw [hpt] at hpin'
        cases hg' : PMap.get?
            (splitStep ptsAll nw (m, newm, heap) pos).1 q with
        | none => rw [hg'] at hpin'; cases hpin'
        | some pt' =>
          rw [hg'] at hpin'
          simp only [Option.map_some'] at hpin'
          injection hpin' with hpin'
          exact ih5 q hqr pt' hg' pid (by rw [hpin', hpin])

end RLS

namespace RLS

theorem boardSplitWire_spec (s : BoardState) (id : Nat) (w : Wire)
    (points : List Pos) (us : Bool)
    (hw : FixedVec.get s.wires id = some w)
    (hndm : (PMap.keys w.points).Nodup)
    (hpts : points.Nodup)
    (hsub : ∀ p ∈ points, p ∈ PMap.keys w.points) :
    (boardSplitWire s id points us).2 =
      some (FixedVec.firstFreePos s.wires) ∧
    (∃ w', FixedVec.get (boardSplitWire s id points us).1.wires id =
        some w' ∧
      w'.id = w.id ∧
      ((PMap.keys w'.points : Multiset Pos) + (points : Multiset Pos) =
        (PMap.keys w.points : Multiset Pos)) ∧
      (PMap.keys w'.points).Nodup) ∧
    (∃ nwire, FixedVec.get (boardSplitWire s id points us).1.wires
        (FixedVec.firstFreePos s.wires) = some nwire ∧
      nwire.id = FixedVec.firstFreePos s.wires ∧
      ((PMap.keys nwire.points : Multiset Pos) = (points : Multiset Pos))) ∧
    (∀ p ∈ points, ∀ pt, PMap.get? w.points p = some pt →
      ∀ pid, pt.pin = some pid →
        pinWireOf (boardSplitWire s id points us).1 pid =
          some (FixedVec.firstFreePos s.wires)) := by
  have hne : id ≠ FixedVec.firstFreePos s.wires := by
    intro h
    rw [h, FixedVec.get_firstFreePos] at hw
    cases hw
  obtain ⟨K1, K2, K3, K4, K5⟩ :=
    splitFold_spec points (FixedVec.firstFreePos s.wires) points w.points
      ([] : PMap) s.pinWires hpts hsub hndm (fun q _ => List.not_mem_nil q)
  have hwires : (boardSplitWire s id points us).1.wires =
      FixedVec.set (FixedVec.set s.wires
        { w with points := (points.foldl
            (splitStep points (FixedVec.firstFreePos s.wires))
            (w.points, ([] : PMap), s.pinWires)).1 } id)
        ⟨FixedVec.firstFreePos s.wires,
          (points.foldl (splitStep points (FixedVec.firstFreePos s.wires))
            (w.points, ([] : PMap), s.pinWires)).2.1⟩
        (FixedVec.firstFreePos s.wires) := by
    unfold boardSplitWire
    rw [hw]
    cases us <;> rfl
  have hpw : (boardSplitWire s id points us).1.pinWires =
      (points.foldl (splitStep points (FixedVec.firstFreePos s.wires))
        (w.points, ([] : PMap), s.pinWires)).2.2 := by
    unfold boardSplitWire
    rw [hw]
    cases us <;> rfl
  refine ⟨?_, ?_, ?_, ?_⟩
  · unfold boardSplitWire
    rw [hw]
  · refine ⟨{ w with points := (points.foldl
        (splitStep points (FixedVec.firstFreePos s.wires))
        (w.points, ([] : PMap), s.pinWires)).1 }, ?_, rfl, K1, K2⟩
    rw [hwires, FixedVec.get_set_at, if_neg hne, FixedVec.get_set_at, if_pos rfl]
  · refine ⟨⟨FixedVec.firstFreePos s.wires,
      (points.foldl (splitStep points (FixedVec.firstFreePos s.wires))
        (w.points, ([] : PMap), s.pinWires)).2.1⟩, ?_, rfl, ?_⟩
    · rw [hwires, FixedVec.get_set_at, if_pos rfl]
    · simpa using K3
  · intro p hp pt hpt pid hpin
    have h5 := K5 p hp pt hpt pid hpin
    unfold pinWireOf
    rw [hpw]
    cases hg : ((points.foldl
        (splitStep points (FixedVec.firstFreePos s.wires))
        (w.points, ([] : PMap), s.pinWires)).2.2.find?
        (fun e => e.1 = pid)) with
    | none => rw [hg] at h5; cases h5
    | some ee =>
      rw [hg] at h5
      simp only [Option.map_some'] at h5
      exact Option.some.inj h5

end RLS

namespace RLS

theorem floodGo_perm (s : BoardState) (id : Nat) :
    ∀ (fuel : Nat) (remaining queue group : List Pos),
    ((floodGo s id fuel remaining queue group).1 ++
      (floodGo s id fuel remaining queue group).2).Perm
      (group ++ remaining) := by
  intro fuel
  induction fuel with
  | zero =>
    intro remaining queue group
    cases queue with
    | nil => exact List.Perm.refl _
    | cons pos qs => exact List.Perm.refl _
  | succ fuel ih =>
    intro remaining queue group
    cases queue with
    | nil => exact List.Perm.refl _
    | cons pos qs =>
      unfold floodGo
      by_cases hmem : pos ∈ remaining
      · rw [if_pos hmem]
        refine (ih _ _ _).trans ?_
        exact List.perm_middle.symm.trans
          (List.Perm.append_left group (List.perm_cons_erase hmem).symm)
      · rw [if_neg hmem]
        exact ih _ _ _

theorem floodGo_len (s : BoardState) (id : Nat) :
    ∀ (fuel : Nat) (remaining queue group : List Pos),
    (floodGo s id fuel remaining queue group).2.length ≤
      remaining.length := by
  intro fuel
  induction fuel with
  | zero =>
    intro remaining queue group
    cases queue with
    | nil => exact le_refl _
    | cons pos qs => exact le_refl _
  | succ fuel ih =>
    intro remaining queue group
    cases queue with
    | nil => exact le_refl _
    | cons pos qs =>
      unfold floodGo
      by_cases hmem : pos ∈ remaining
      · rw [if_pos hmem]
        exact (ih _ _ _).trans (List.erase_sublist pos remaining).length_le
      · rw [if_neg hmem]
        exact ih _ _ _

theorem splitGroupsGo_join_perm (s : BoardState) (id : Nat) :
    ∀ (fuel : Nat) (remaining : List Pos), remaining.length < fuel →
    ((splitGroupsGo s id fuel remaining).flatten).Perm remaining := by
  intro fuel
  induction fuel with
  | zero =>
    intro remaining h
    omega
  | succ fuel ih =>
    intro remaining h
    cases remaining with
    | nil => exact List.Perm.refl _
    | cons start rest =>
      unfold splitGroupsGo
      dsimp only
      have hflood := floodGo_perm s id (5 * (start :: rest).length + 2)
        (start :: rest) [start] []
      have hlen : (floodGo s id (5 * (start :: rest).length + 2)
          (start :: rest) [start] []).2.length ≤ rest.length := by
        rw [show 5 * (start :: rest).length + 2 =
          (5 * (start :: rest).length + 1) + 1 from rfl]
        unfold floodGo
        rw [if_pos (List.mem_cons_self start rest), List.erase_cons_head]
        exact floodGo_len s id _ _ _ _
      have hrest : rest.length < fuel := by
        have := Nat.lt_of_succ_lt_succ (show rest.length + 1 < fuel + 1 by
          simpa using h)
        exact this
      have hih := ih (floodGo s id (5 * (start :: rest).length + 2)
        (start :: rest) [start] []).2 (lt_of_le_of_lt hlen hrest)
      simp only [List.flatten_cons]
      exact (List.Perm.append_left _ hih).trans hflood

theorem biggestIdx_fold_aux :
    ∀ (gs : List (List Pos)) (acc : Nat × Nat × Nat), acc.2.1 < acc.1 →
    (gs.foldl (fun (acc : Nat × Nat × Nat) g =>
      if g.length ≥ acc.2.2 then (acc.1 + 1, acc.1, g.length)
      else (acc.1 + 1, acc.2.1, acc.2.2)) acc).2.1 <
    (gs.foldl (fun (acc : Nat × Nat × Nat) g =>
      if g.length ≥ acc.2.2 then (acc.1 + 1, acc.1, g.length)
      else (acc.1 + 1, acc.2.1, acc.2.2)) acc).1 := by
  intro gs
  induction gs with
  | nil =>
    intro acc h
    exact h
  | cons g gs ih =>
    intro acc h
    simp only [List.foldl_cons]
    split
    · exact ih _ (by dsimp only; omega)
    · exact ih _ (by dsimp only; omega)

theorem biggestIdx_fold_len :
    ∀ (gs : List (List Pos)) (acc : Nat × Nat × Nat),
    (gs.foldl (fun (acc : Nat × Nat × Nat) g =>
      if g.length ≥ acc.2.2 then (acc.1 + 1, acc.1, g.length)
      else (acc.1 + 1, acc.2.1, acc.2.2)) acc).1 = acc.1 + gs.length := by
  intro gs
  induction gs with
  | nil =>
    intro acc
    simp
  | cons g gs ih =>
    intro acc
    simp only [List.foldl_cons]
    split
    · rw [ih]
      simp only [List.length_cons]
      omega
    · rw [ih]
      simp only [List.length_cons]
      omega

theorem biggestIdx_lt (groups : List (List Pos)) (h : groups ≠ []) :
    biggestIdx groups < groups.length := by
  unfold biggestIdx
  cases groups with
  | nil => exact absurd rfl h
  | cons g gs =>
    simp only [List.foldl_cons]
    rw [if_pos (Nat.zero_le _)]
    have h1 := biggestIdx_fold_aux gs (1, 0, g.length) (by dsimp only; omega)
    have h2 := biggestIdx_fold_len gs (1, 0, g.length)
    rw [h2] at h1
    rw [show (g :: gs).length = 1 + gs.length by simp [Nat.add_comm]]
    exact h1

end RLS

namespace RLS

theorem splitRounds_spec (id big : Nat) :
    ∀ (gs : List (List Pos)) (st : BoardState) (k : Nat) (acc : List Nat)
      (wk : Wire),
    FixedVec.get st.wires id = some wk →
    (PMap.keys wk.points).Nodup →
    (gs.flatten).Nodup →
    (∀ p ∈ gs.flatten, p ∈ PMap.keys wk.points) →
    (big < k →
      ∃ wfin, FixedVec.get
          (gs.foldl (splitRound id big) (st, k, acc)).1.wires id =
          some wfin ∧
        ((PMap.keys wfin.points : Multiset Pos) + (gs.flatten : Multiset Pos) =
          (PMap.keys wk.points : Multiset Pos))) ∧
    (∀ j, j < gs.length → big = k + j →
      ∃ wfin, FixedVec.get
          (gs.foldl (splitRound id big) (st, k, acc)).1.wires id =
          some wfin ∧
        ((PMap.keys wfin.points : Multiset Pos) +
            (((gs.take j).flatten ++ (gs.drop (j + 1)).flatten : List Pos) :
              Multiset Pos) =
          (PMap.keys wk.points : Multiset Pos))) := by
  intro gs
  induction gs with
  | nil =>
    intro st k acc wk hwk _ _ _
    constructor
    · intro _
      exact ⟨wk, hwk, by simp⟩
    · intro j hj _
      exact absurd hj (by simp)
  | cons g gs ih =>
    intro st k acc wk hwk hndk hjoin hsubj
    have hjoin' : (g ++ gs.flatten).Nodup := by simpa using hjoin
    have hgnd : g.Nodup := (List.nodup_append.mp hjoin').1
    have hgsnd : (gs.flatten).Nodup := (List.nodup_append.mp hjoin').2.1
    have hgdisj : ∀ p ∈ g, p ∉ gs.flatten := by
      intro p hp
      exact (List.nodup_append.mp hjoin').2.2 hp
    have hsubg : ∀ p ∈ g, p ∈ PMap.keys wk.points := by
      intro p hp
      exact hsubj p (by simp [hp])
    have hsubgs : ∀ p ∈ gs.flatten, p ∈ PMap.keys wk.points := by
      intro p hp
      exact hsubj p (by simp [hp])
    simp only [List.foldl_cons]
    by_cases hkb : k = big
    · have hround : splitRound id big (st, k, acc) g =
          (st, k + 1, acc ++ [id]) := by
        unfold splitRound
        rw [if_neg (by simpa using hkb)]
      rw [hround]
      obtain ⟨ihA, ihB⟩ := ih st (k + 1) (acc ++ [id]) wk hwk hndk hgsnd hsubgs
      constructor
      · intro h
        omega
      · intro j hj hbigj
        have hj0 : j = 0 := by omega
        subst hj0
        obtain ⟨wfin, hget, heq⟩ := ihA (by omega)
        exact ⟨wfin, hget, heq⟩
    · have hround : splitRound id big (st, k, acc) g =
          (setNodeWires (boardSplitWire st id g false).1 g
            (FixedVec.firstFreePos st.wires), k + 1,
            acc ++ [FixedVec.firstFreePos st.wires]) := by
        unfold splitRound
        rw [if_pos (by simpa using hkb)]
        dsimp only
        rw [show (boardSplitWire st id g false).2 =
          some (FixedVec.firstFreePos st.wires) from
          (boardSplitWire_spec st id wk g false hwk hndk hgnd hsubg).1]
      rw [hround]
      obtain ⟨_, ⟨w', hw', _, hkeq, hknd⟩, _, _⟩ :=
        boardSplitWire_spec st id wk g false hwk hndk hgnd hsubg
      have hw'' : FixedVec.get (setNodeWires (boardSplitWire st id g false).1
          g (FixedVec.firstFreePos st.wires)).wires id = some w' := by
        rw [setNodeWires_wires]
        exact hw'
      have hsubgs' : ∀ p ∈ gs.flatten, p ∈ PMap.keys w'.points := by
        intro p hp
        have hpk : p ∈ PMap.keys wk.points := hsubgs p hp
        have hpg : p ∉ g := fun hg => hgdisj p hg hp
        have hpm : p ∈ ((PMap.keys w'.points : Multiset Pos) +
            (g : Multiset Pos)) := by
          rw [hkeq]
          exact hpk
        rcases Multiset.mem_add.mp hpm with h | h
        · exact h
        · exact absurd h hpg
      obtain ⟨ihA, ihB⟩ := ih _ (k + 1) _ w' hw'' hknd hgsnd hsubgs'
      constructor
      · intro h
        obtain ⟨wfin, hget, heq⟩ := ihA (by omega)
        refine ⟨wfin, hget, ?_⟩
        have hjc : ((g :: gs).flatten : Multiset Pos) =
            (g : Multiset Pos) + (gs.flatten : Multiset Pos) := by
          simp [List.flatten_cons]
        rw [hjc, ← hkeq, ← heq]
        abel
      · intro j hj hbigj
        have hj0 : j ≠ 0 := by omega
        obtain ⟨j', rfl⟩ := Nat.exists_eq_succ_of_ne_zero hj0
        obtain ⟨wfin, hget, heq⟩ := ihB j' (by simpa using Nat.lt_of_succ_lt_succ hj) (by omega)
        refine ⟨wfin, hget, ?_⟩
        have hjc : ((((g :: gs).take (j' + 1)).flatten ++
              ((g :: gs).drop (j' + 1 + 1)).flatten : List Pos) :
              Multiset Pos) =
            (g : Multiset Pos) +
              (((gs.take j').flatten ++ (gs.drop (j' + 1)).flatten : List Pos) :
                Multiset Pos) := by
          simp [List.flatten_cons]
        rw [hjc, ← hkeq, ← heq]
        abel

end RLS

namespace RLS

/-- C3: wire split. The flood-fill groups computed by `split_wires`
partition the wire's point set: their concatenation is a permutation of
the point-map keys, each group is duplicate-free and distinct groups are
disjoint, so no position is lost or duplicated.  `split_wire` on any
duplicate-free set of in-map positions allocates the first free wire slot,
removes exactly those positions from the original wire's point map,
inserts exactly them into the new wire, and redirects every attached
pin's wire reference to the new wire id.  When more than one group
results, the group at the selected biggest index keeps the original wire
id: after `split_wires` the original wire's point keys are exactly that
group. -/
theorem c3_split_wire_partition (s : BoardState) (id : Nat) (w : Wire)
    (us : Bool) (groups : List (List Pos))
    (hw : FixedVec.get s.wires id = some w)
    (hnd : (PMap.keys w.points).Nodup)
    (hgroups : groups = splitGroupsGo s id
      ((PMap.keys w.points).length + 1) (PMap.keys w.points)) :
    (groups.flatten).Perm (PMap.keys w.points) ∧
    (∀ g ∈ groups, g.Nodup) ∧
    groups.Pairwise (fun g₁ g₂ => ∀ p ∈ g₁, p ∉ g₂) ∧
    (∀ points, points.Nodup → (∀ p ∈ points, p ∈ PMap.keys w.points) →
      (boardSplitWire s id points us).2 =
        some (FixedVec.firstFreePos s.wires) ∧
      (∃ w', FixedVec.get (boardSplitWire s id points us).1.wires id =
          some w' ∧
        ((PMap.keys w'.points : Multiset Pos) + (points : Multiset Pos) =
          (PMap.keys w.points : Multiset Pos))) ∧
      (∃ nwire, FixedVec.get (boardSplitWire s id points us).1.wires
          (FixedVec.firstFreePos s.wires) = some nwire ∧
        ((PMap.keys nwire.points : Multiset Pos) =
          (points : Multiset Pos))) ∧
      (∀ p ∈ points, ∀ pt, PMap.get? w.points p = some pt →
        ∀ pid, pt.pin = some pid →
          pinWireOf (boardSplitWire s id points us).1 pid =
            some (FixedVec.firstFreePos s.wires))) ∧
    (1 < groups.length →
      ∃ wfin, FixedVec.get (splitWires s id us).wires id = some wfin ∧
        ((PMap.keys wfin.points : Multiset Pos) =
          (groups.getD (biggestIdx groups) [] : Multiset Pos))) := by
  have hperm : (groups.flatten).Perm (PMap.keys w.points) := by
    rw [hgroups]
    exact splitGroupsGo_join_perm s id _ _ (by omega)
  have hjnd : (groups.flatten).Nodup := (hperm.nodup_iff).mpr hnd
  obtain ⟨hgnd, hgdisj⟩ := List.nodup_flatten.mp hjnd
  refine ⟨hperm, hgnd, ?_, ?_, ?_⟩
  · exact hgdisj.imp (fun hd p hp hp2 => hd hp hp2)
  · intro points hptsnd hsub
    obtain ⟨h1, ⟨w', hw', _, hkeq, _⟩, ⟨nwire, hnw, _, hnkeys⟩, hpins⟩ :=
      boardSplitWire_spec s id w points us hw hnd hptsnd hsub
    exact ⟨h1, ⟨w', hw', hkeq⟩, ⟨nwire, hnw, hnkeys⟩, hpins⟩
  · intro hlen
    have hne : groups ≠ [] := by
      intro h
      rw [h] at hlen
      simp at hlen
    have hblt := biggestIdx_lt groups hne
    obtain ⟨hA, hB⟩ := splitRounds_spec id (biggestIdx groups) groups s 0 []
      w hw hnd hjnd (fun p hp => hperm.mem_iff.mp hp)
    obtain ⟨wfin, hget, heq⟩ := hB (biggestIdx groups) hblt (by omega)
    refine ⟨wfin, ?_, ?_⟩
    · unfold splitWires
      rw [hw]
      dsimp only
      rw [← hgroups, if_neg (by omega)]
      cases us <;> exact hget
    · have hdrop : groups.drop (biggestIdx groups) =
          groups.getD (biggestIdx groups) [] ::
            groups.drop (biggestIdx groups + 1) := by
        rw [List.getD_eq_getElem?_getD, List.getElem?_eq_getElem hblt,
          Option.getD_some]
        exact List.drop_eq_getElem_cons hblt
      have hjoin_eq : groups.flatten =
          (groups.take (biggestIdx groups)).flatten ++
            (groups.getD (biggestIdx groups) [] ++
              (groups.drop (biggestIdx groups + 1)).flatten) := by
        conv_lhs => rw [← List.take_append_drop (biggestIdx groups) groups]
        rw [List.flatten_append, hdrop, List.flatten_cons]
      have hpartm : ((groups.flatten : List Pos) : Multiset Pos) =
          (PMap.keys w.points : Multiset Pos) :=
        Multiset.coe_eq_coe.mpr hperm
      rw [show (((groups.take (biggestIdx groups)).flatten ++
            (groups.drop (biggestIdx groups + 1)).flatten : List Pos) :
            Multiset Pos) =
          ((groups.take (biggestIdx groups)).flatten : Multiset Pos) +
            ((groups.drop (biggestIdx groups + 1)).flatten : Multiset Pos)
        from (Multiset.coe_add _ _).symm] at heq
      have hflatsum : ((groups.flatten : List Pos) : Multiset Pos) =
          ((groups.take (biggestIdx groups)).flatten : Multiset Pos) +
            (((groups.getD (biggestIdx groups) [] : List Pos) :
                Multiset Pos) +
              ((groups.drop (biggestIdx groups + 1)).flatten :
                Multiset Pos)) := by
        rw [hjoin_eq, ← Multiset.coe_add, ← Multiset.coe_add]
      have h3 : (PMap.keys wfin.points : Multiset Pos) +
          (((groups.take (biggestIdx groups)).flatten : Multiset Pos) +
            ((groups.drop (biggestIdx groups + 1)).flatten : Multiset Pos)) =
          ((groups.getD (biggestIdx groups) [] : List Pos) : Multiset Pos) +
          (((groups.take (biggestIdx groups)).flatten : Multiset Pos) +
            ((groups.drop (biggestIdx groups + 1)).flatten : Multiset Pos)) := by
        rw [heq, ← hpartm, hflatsum]
        abel
      exact add_right_cancel h3

/-- C3 witness: splitting the single pinned point of `pinBoard`'s wire 0
out into a fresh wire redirects the attached pin to the new wire id. -/
theorem c3_split_wire_partition_witness :
    pinWireOf (boardSplitWire pinBoard 0 [⟨0, 0⟩] false).1 (0, 0) =
      some (FixedVec.firstFreePos pinBoard.wires) :=
  ((c3_split_wire_partition pinBoard 0
      ⟨0, [(⟨0, 0⟩, ⟨false, false, some (0, 0)⟩)]⟩ false
      (splitGroupsGo pinBoard 0
        ((PMap.keys ([(⟨0, 0⟩, ⟨false, false, some (0, 0)⟩)] :
          PMap)).length + 1)
        (PMap.keys ([(⟨0, 0⟩, ⟨false, false, some (0, 0)⟩)] : PMap)))
      rfl (by decide) rfl).2.2.2.1
    [⟨0, 0⟩] (by decide) (by decide)).2.2.2
    ⟨0, 0⟩ (by decide) ⟨false, false, some (0, 0)⟩ (by decide) (0, 0) rfl

end RLS
